import Mathlib

/-!
Verification of the `tern` migration engine (crate `tern-core`, with the
migration-set construction generated by `tern-derive`).

The development is a shallow embedding:

* Queries and the comment-aware statement splitter (`tern-core/src/migration.rs`,
  `impl Query`) are modelled character-by-character on `List Char`.  Rust
  strings are modelled at character granularity (the inputs of interest are
  ASCII, where Rust's byte indices and our character indices agree, and
  `char::is_whitespace` agrees with `Char.isWhitespace`).
* The runner (`tern-core/src/runner.rs`) and the context protocol
  (`tern-core/src/migration.rs`, `MigrationContext`) are modelled as state
  transformers over an in-memory history table plus a trace of executor
  calls.  Database outcomes (success/failure of `apply_tx` / `apply_no_tx`,
  the clock, run durations) are supplied by an environment `Env`; the
  history-table bookkeeping calls (`create_history_if_not_exists`,
  `insert_applied_migration`, `get_all_applied`) are modelled as total
  operations on the in-memory table.
-/

namespace Tern

/-! ### Character-level string helpers

These mirror the Rust `str` operations used by `Query::sanitize` and
`Query::split_statements`. -/

/-- Rust `char::is_whitespace` (restricted to the ASCII whitespace that can
occur in the queries handled here). -/
def isWs (c : Char) : Bool := c.isWhitespace

/-- Rust `str::trim_start`. -/
def trimStartChars (l : List Char) : List Char := l.dropWhile isWs

/-- Rust `str::trim_end`. -/
def trimEndChars (l : List Char) : List Char := (l.reverse.dropWhile isWs).reverse

/-- Rust `str::trim`. -/
def trimChars (l : List Char) : List Char := trimEndChars (trimStartChars l)

/-- Strip one trailing `'\r'` from a reversed line accumulator; Rust `lines()`
removes a `'\r'` only when it directly precedes the `'\n'` separator. -/
def stripCRrev (acc : List Char) : List Char :=
  match acc with
  | '\r' :: a => a
  | a => a

/-- Worker for `rustLines`; `acc` holds the current line reversed. -/
def rustLinesAux : List Char → List Char → List (List Char)
  | [], acc => if acc.isEmpty then [] else [acc.reverse]
  | c :: rest, acc =>
    if c = '\n' then (stripCRrev acc).reverse :: rustLinesAux rest []
    else rustLinesAux rest (c :: acc)

/-- Rust `str::lines`: split at `'\n'` (or `"\r\n"`); a final line ending is
optional and produces no trailing empty line. -/
def rustLines (s : List Char) : List (List Char) := rustLinesAux s []

/-- Rust `line.starts_with("--")`. -/
def startsWithDashDash : List Char → Bool
  | '-' :: '-' :: _ => true
  | _ => false

/-- Rust `stripped.replace_range(offset.., "")` with
`offset = stripped.find("--").unwrap_or(len)`: keep the prefix before the
first occurrence of `"--"`. -/
def cutAtDashDash : List Char → List Char
  | [] => []
  | [c] => [c]
  | a :: b :: rest =>
    if a = '-' && b = '-' then [] else a :: cutAtDashDash (b :: rest)

/-- Whether `"*/"` occurs somewhere in the list. -/
def hasClose : List Char → Bool
  | [] => false
  | [_] => false
  | a :: b :: rest => (a = '*' && b = '/') || hasClose (b :: rest)

/-- One-pass worker for the regex `\/\*(?s).*?(?-s)\*\/` with
`replace_all(_, "")`: the Boolean is the in-comment state.  A `"/*"` is only
entered when a closing `"*/"` exists further on, matching the regex, which
finds no match for an unclosed `"/*"` (in-comment mode with fewer than two
characters left is therefore unreachable). -/
def removeBCAux : List Char → Bool → List Char
  | [], _ => []
  | [c], false => [c]
  | [_], true => []
  | a :: b :: rest, false =>
    if a = '/' && b = '*' && hasClose rest then removeBCAux rest true
    else a :: removeBCAux (b :: rest) false
  | a :: b :: rest, true =>
    if a = '*' && b = '/' then removeBCAux rest false
    else removeBCAux (b :: rest) true

/-- Rust `block_comment.replace_all(&sql, "")` for the non-greedy block-comment
regex: repeatedly delete from the leftmost `"/*"` through the nearest
following `"*/"`. -/
def removeBlockComments (s : List Char) : List Char := removeBCAux s false

/-- Rust `line.ends_with(";")` (on a nonempty suffix check: the last character
is `';'`). -/
def endsWithSemi (l : List Char) : Bool := l.getLast? = some ';'

/-- `Query::sanitize` from `tern-core/src/migration.rs`, character level:
trim, drop lines whose trimmed text starts with `"--"`, cut each remaining
line at its first `"--"` and trim its end, re-join with `'\n'`, delete block
comments, and terminate with `';'` if the text does not already end with it. -/
def sanitizeChars (sql : List Char) : List Char :=
  let kept := (rustLines (trimChars sql)).filter
    (fun line => !(startsWithDashDash (trimChars line)) || (trimChars line).isEmpty)
  let strippedLines := kept.map (fun line => trimEndChars (cutAtDashDash line))
  let joined := List.intercalate ['\n'] strippedLines
  let stripped := removeBlockComments joined
  if endsWithSemi stripped then stripped else stripped ++ [';']

/-- The `try_fold` in `Query::split_statements`: skip blank lines, append each
line plus `'\n'` to the buffer, and emit the buffer as a statement whenever
the line ends with `';'`.  (`writeln!` to a `String` cannot fail, so the Rust
`try_fold` always takes its `Ok` path; the final buffer is discarded.) -/
def splitStatementsFold : List (List Char) → List Char → List (List Char)
  | [], _ => []
  | line :: rest, buf =>
    if (trimChars line).isEmpty then splitStatementsFold rest buf
    else
      if endsWithSemi line then (buf ++ line ++ ['\n']) :: splitStatementsFold rest []
      else splitStatementsFold rest (buf ++ line ++ ['\n'])

/-- The buffer left over when the fold of `splitStatementsFold` finishes
(the Rust code drops it; it is provably empty because `sanitize` terminates
the text with `';'`). -/
def splitStatementsResidual : List (List Char) → List Char → List Char
  | [], buf => buf
  | line :: rest, buf =>
    if (trimChars line).isEmpty then splitStatementsResidual rest buf
    else
      if endsWithSemi line then splitStatementsResidual rest []
      else splitStatementsResidual rest (buf ++ line ++ ['\n'])

/-- `Query::split_statements`, character level. -/
def splitStatementsChars (q : List Char) : List (List Char) :=
  splitStatementsFold (rustLines (sanitizeChars q)) []

/-- A SQL query (`Query` in `tern-core/src/migration.rs`). -/
structure Query where
  sql : String
deriving DecidableEq, Repr

/-- `Query::sanitize` as a `String → String` function. -/
def Query.sanitize (q : Query) : String := String.mk (sanitizeChars q.sql.data)

/-- `Query::split_statements`.  The Rust function returns
`TernResult<Vec<String>>` but its only fallible step, `writeln!` into a
`String`, cannot fail, so the result is modelled as the list itself. -/
def Query.split_statements (q : Query) : List String :=
  (splitStatementsChars q.sql.data).map String.mk

/-! The two unit tests of `tern-core/src/migration.rs` (`split_one`,
`split_two`), replayed against the embedding. -/

example :
    (Query.mk ("\n-- This is a comment.\nSELECT\n  *\nFROM\n  the_schema.the_table\nWHERE\n  everything = 'is_good'\n")).split_statements
      = ["SELECT\n  *\nFROM\n  the_schema.the_table\nWHERE\n  everything = 'is_good';\n"] := by
  decide

example :
    (Query.mk ("\n-- tern:noTransaction\nSELECT count(e.*),\n  e.x,\n  e.y -- This is the column called `y`\nFROM /* A comment block can even be like this */ the_table\n  as e\nJOIN another USING (id)\n/*\nThis is a multi\nline\ncomment\n*/\nWHERE false;\n\nSELECT a\nfrom x\n-- Asdfsdfsdfsdfsdsdf /* Unnecessary comment */\nwhere false\n\n;\n")).split_statements
      = ["SELECT count(e.*),\n  e.x,\n  e.y\nFROM  the_table\n  as e\nJOIN another USING (id)\nWHERE false;\n",
         "SELECT a\nfrom x\nwhere false\n;\n"] := by
  decide

/-! ### Data model (`tern-core/src/migration.rs`) -/

/-- `MigrationId`: version/name derived from the migration source filename. -/
structure MigrationId where
  version : Int
  description : String
deriving DecidableEq, Repr

/-- `AppliedMigration`: one row of the schema history table.  `applied_at`
models the `DateTime<Utc>` timestamp abstractly. -/
structure AppliedMigration where
  version : Int
  description : String
  content : String
  duration_ms : Int
  applied_at : Int
deriving DecidableEq, Repr

/-- `impl From<AppliedMigration> for MigrationId`. -/
def AppliedMigration.toMigrationId (a : AppliedMigration) : MigrationId :=
  { version := a.version, description := a.description }

/-- `MigrationState` from `tern-core/src/runner.rs`. -/
inductive MigrationState where
  | Applied
  | SoftApplied
  | Unapplied
deriving DecidableEq, Repr

/-- `Transactional` from `tern-core/src/runner.rs`. -/
inductive Transactional where
  | NoTransaction
  | InTransaction
  | Other (s : String)
deriving DecidableEq, Repr

/-- `Transactional::from_boolean`. -/
def Transactional.from_boolean (v : Bool) : Transactional :=
  if v then .NoTransaction else .InTransaction

/-- `RunDuration` from `tern-core/src/runner.rs`. -/
inductive RunDuration where
  | Duration (ms : Int)
  | Unapplied
deriving DecidableEq, Repr

/-- `MigrationResult` from `tern-core/src/runner.rs`. -/
structure MigrationResult where
  dryrun : Bool
  version : Int
  state : MigrationState
  applied_at : Option Int
  description : String
  content : String
  transactional : Transactional
  duration_ms : RunDuration
deriving DecidableEq, Repr

/-- `Report` from `tern-core/src/runner.rs`. -/
structure Report where
  migrations : List MigrationResult
deriving DecidableEq, Repr

/-- `Error` from `tern-core/src/error.rs`.  `Backend` is the leaf standing for
an arbitrary boxed driver error (`BoxDynError`); the constructors carrying a
nested `Error` model the boxed sources produced by the `DatabaseError`
conversion methods. -/
inductive Error where
  | Execute (source : Error)
  | ExecuteMigration (source : Error) (id : MigrationId) (no_tx : Bool)
  | ResolveQuery (msg : String)
  | Invalid (msg : String)
  | OutOfSync (at_issue : List MigrationId) (msg : String)
  | Partial (source : Error) (report : Report)
  | Backend (msg : String)
deriving DecidableEq, Repr

deriving instance DecidableEq for Except

/-- A single migration (`trait Migration`).  `build_result` is the outcome of
`Migration::build(ctx)` for this run: either the resolved `Query` or the
error the builder returns; the embedding treats it as a fixed datum of the
migration because no claim depends on `build` observing context mutation. -/
structure Migration where
  id : MigrationId
  content : String
  no_tx : Bool
  build_result : Except Error Query

/-- `Migration::to_applied(duration_ms, applied_at, content)`. -/
def Migration.to_applied (m : Migration) (duration_ms : Int) (applied_at : Int)
    (content : String) : AppliedMigration :=
  { version := m.id.version, description := m.id.description
    content := content, duration_ms := duration_ms, applied_at := applied_at }

/-! ### Executor state and environment

The `Executor` trait is external (implemented per backend).  Its calls that
execute migration SQL are recorded in an event trace, and their outcomes are
chosen by an environment `Env`.  The history table lives in memory; the
bookkeeping calls (`insert_applied_migration`, `upsert_applied_migration`,
`get_all_applied`, `create_history_if_not_exists`) are modelled as total
operations on it. -/

/-- One observable executor / builder call made during a run. -/
inductive Event where
  | builtQuery (id : MigrationId)
  | applyTx (q : Query)
  | applyNoTx (q : Query)
  | insertApplied (row : AppliedMigration)
  | upsertApplied (row : AppliedMigration)
deriving DecidableEq, Repr

/-- The database-visible state: the history-table rows (in insertion order)
and the trace of calls made so far. -/
structure DbState where
  history : List AppliedMigration
  trace : List Event
deriving DecidableEq, Repr

/-- The environment: outcomes of `apply_tx` / `apply_no_tx` (`none` means
success, `some msg` the driver error), the clock `now`, and the measured
run duration `dur`. -/
structure Env where
  execFail : Bool → Query → Option String
  now : Int
  dur : Int

/-- The executor call that executes a migration query: `apply_no_tx` when
`no_tx` is set and `apply_tx` otherwise. -/
def execEvent (no_tx : Bool) (q : Query) : Event :=
  if no_tx then .applyNoTx q else .applyTx q

/-- `MigrationContext::apply` (`tern-core/src/migration.rs`): build the query,
dispatch execution on `no_tx`, and on success insert the history row built by
`to_applied` and return it.  A failed execution is wrapped by
`void_tern_migration_result` into `ExecuteMigration`. -/
def MigrationContext.apply (env : Env) (st : DbState) (m : Migration) :
    Except Error AppliedMigration × DbState :=
  let st0 : DbState := { st with trace := st.trace ++ [.builtQuery m.id] }
  match m.build_result with
  | .error e => (.error e, st0)
  | .ok q =>
    match env.execFail m.no_tx q with
    | some msg =>
      (.error (.ExecuteMigration (.Backend msg) m.id m.no_tx),
       { st0 with trace := st0.trace ++ [execEvent m.no_tx q] })
    | none =>
      let applied := m.to_applied env.dur env.now q.sql
      (.ok applied,
       { history := st0.history ++ [applied],
         trace := st0.trace ++ [execEvent m.no_tx q, .insertApplied applied] })

/-- `MigrationContext::latest_version`: the fold over `get_all_applied`. -/
def latest_version (history : List AppliedMigration) : Option Int :=
  history.foldl
    (fun acc m =>
      match acc with
      | none => some m.version
      | some v => if m.version > v then some m.version else acc)
    none

/-! ### Migration sets (`MigrationSet` and the `tern-derive` generated
`migration_set`) -/

/-- Stable insertion of a migration into a version-sorted list (the element
goes after existing elements with the same or smaller version). -/
def insertByVersion (m : Migration) : List Migration → List Migration
  | [] => [m]
  | x :: xs =>
    if x.id.version ≤ m.id.version then x :: insertByVersion m xs
    else m :: x :: xs

/-- Stable sort by version.  `MigrationSet::new` sorts with
`Vec::sort_by_key`, a stable sort; any two stable sorts by the same key are
extensionally equal, so a stable insertion sort is a faithful model. -/
def sortByVersion : List Migration → List Migration
  | [] => []
  | x :: xs => insertByVersion x (sortByVersion xs)

/-- `MigrationSet::new`: sort the collected migrations by version. -/
def MigrationSet.new (ms : List Migration) : List Migration := sortByVersion ms

/-- `MigrationSet::max`: the largest version in the set. -/
def MigrationSet.maxVersion (ms : List Migration) : Option Int :=
  (ms.map (fun m => m.id.version)).max?

/-- The `migration_set(last_applied)` implementation generated by
`tern-derive` (`quote/migration_source.rs`): the full source vector when no
version is given, otherwise `skip_while(version <= v)` before wrapping in
`MigrationSet::new`.  `source` is the generated `vec![...]` of migrations,
which the derive macro emits sorted ascending by version
(`parse.rs: sources.sort_by_key`). -/
def migration_set (source : List Migration) (last_applied : Option Int) :
    List Migration :=
  match last_applied with
  | none => MigrationSet.new source
  | some v => MigrationSet.new (source.dropWhile (fun m => decide (m.id.version ≤ v)))

/-! ### The runner (`tern-core/src/runner.rs`) -/

/-- `MigrationResult::from_applied`. -/
def MigrationResult.from_applied (applied : AppliedMigration) (no_tx : Option Bool) :
    MigrationResult :=
  { dryrun := false
    version := applied.version
    state := .Applied
    applied_at := some applied.applied_at
    description := applied.description
    content := applied.content
    transactional := (no_tx.map Transactional.from_boolean).getD (.Other "Previously applied")
    duration_ms := .Duration applied.duration_ms }

/-- `MigrationResult::from_soft_applied`. -/
def MigrationResult.from_soft_applied (applied : AppliedMigration) (dryrun : Bool) :
    MigrationResult :=
  { dryrun := dryrun
    version := applied.version
    state := .SoftApplied
    applied_at := some applied.applied_at
    description := applied.description
    content := applied.content
    transactional := .Other "Soft applied"
    duration_ms := .Duration applied.duration_ms }

/-- `MigrationResult::from_unapplied`. -/
def MigrationResult.from_unapplied (m : Migration) (content : String) :
    MigrationResult :=
  { dryrun := true
    version := m.id.version
    state := .Unapplied
    applied_at := none
    description := m.id.description
    content := content
    transactional := Transactional.from_boolean m.no_tx
    duration_ms := .Unapplied }

/-- `check_migrations_in_sync`: the set difference `applied \ source`; an
error naming exactly those ids when it is nonempty.  The Rust `HashSet`s are
modelled as deduplicated lists. -/
def check_migrations_in_sync (applied source : List MigrationId) : Except Error Unit :=
  let source_not_found := applied.filter (fun i => decide (i ∉ source))
  if source_not_found.isEmpty then .ok ()
  else .error (.OutOfSync source_not_found "version/name applied but missing in source")

/-- `Runner::validate_source`: collect the applied ids from the history table
and the source ids from `migration_set(None)`, then check them in sync.
(`check_history_table`, a `CREATE IF NOT EXISTS`, is a no-op on the in-memory
history.) -/
def Runner.validate_source (source : List Migration) (st : DbState) : Except Error Unit :=
  let applied := (st.history.map AppliedMigration.toMigrationId).dedup
  let src := ((migration_set source none).map Migration.id).dedup
  check_migrations_in_sync applied src

/-- `Runner::validate_target`: mirrors the Rust `match` with guards — with an
explicit target, reject `target < last_applied`, then `target > max source
version`; an empty source set is accepted outright. -/
def Runner.validate_target (source : List Migration)
    (last_applied target_version : Option Int) : Except Error Unit :=
  match MigrationSet.maxVersion (migration_set source none) with
  | none => .ok ()
  | some src =>
    match target_version with
    | none => .ok ()
    | some target =>
      match last_applied with
      | some applied =>
        if target < applied then
          .error (.Invalid s!"target version V{target} earlier than latest applied version V{applied}")
        else if target > src then
          .error (.Invalid s!"target version V{target} does not exist, latest version found was V{src}")
        else .ok ()
      | none =>
        if target > src then
          .error (.Invalid s!"target version V{target} does not exist, latest version found was V{src}")
        else .ok ()

/-- The `for migration in &unapplied.migrations` loop of `Runner::run_apply`:
break past the target version; in a dry run only build and record an
`Unapplied` result; otherwise `context.apply` then record an `Applied`
result; any error is wrapped (`tern_migration_result` in the non-dry branch)
and attached to the report so far by `with_report` (`Error::Partial`). -/
def Runner.applyLoop (env : Env) (target_version : Option Int) (dryrun : Bool) :
    List Migration → List MigrationResult → DbState → Except Error Report × DbState
  | [], results, st => (.ok ⟨results⟩, st)
  | m :: rest, results, st =>
    if (match target_version with | some e => decide (m.id.version > e) | none => false) then
      (.ok ⟨results⟩, st)
    else
      if dryrun then
        let st1 : DbState := { st with trace := st.trace ++ [.builtQuery m.id] }
        match m.build_result with
        | .error e => (.error (.Partial e ⟨results⟩), st1)
        | .ok q =>
          Runner.applyLoop env target_version dryrun rest
            (results ++ [MigrationResult.from_unapplied m q.sql]) st1
      else
        match MigrationContext.apply env st m with
        | (.error e, st1) =>
          (.error (.Partial (.ExecuteMigration e m.id m.no_tx) ⟨results⟩), st1)
        | (.ok applied, st1) =>
          Runner.applyLoop env target_version dryrun rest
            (results ++ [MigrationResult.from_applied applied (some m.no_tx)]) st1

/-- `Runner::run_apply`: validate source sync, read the latest applied
version, validate the target, then run the loop over
`migration_set(last_applied)`. -/
def Runner.run_apply (env : Env) (source : List Migration)
    (target_version : Option Int) (dryrun : Bool) (st : DbState) :
    Except Error Report × DbState :=
  match Runner.validate_source source st with
  | .error e => (.error e, st)
  | .ok _ =>
    let last_applied := latest_version st.history
    match Runner.validate_target source last_applied target_version with
    | .error e => (.error e, st)
    | .ok _ =>
      Runner.applyLoop env target_version dryrun (migration_set source last_applied) [] st

/-- The loop of `Runner::run_soft_apply`: break past the target version,
build the query, form the `"-- SOFT APPLIED:"` content and a zero-duration
`AppliedMigration`, and — unless this is a dry run — record it with
`context.insert_applied` (which calls the executor's
`insert_applied_migration`). -/
def Runner.softApplyLoop (env : Env) (target_version : Option Int) (dryrun : Bool) :
    List Migration → List MigrationResult → DbState → Except Error Report × DbState
  | [], results, st => (.ok ⟨results⟩, st)
  | m :: rest, results, st =>
    if (match target_version with | some e => decide (m.id.version > e) | none => false) then
      (.ok ⟨results⟩, st)
    else
      let st1 : DbState := { st with trace := st.trace ++ [.builtQuery m.id] }
      match m.build_result with
      | .error e => (.error (.Partial e ⟨results⟩), st1)
      | .ok q =>
        let content := "-- SOFT APPLIED:\n\n" ++ q.sql ++ "\n"
        let applied := m.to_applied 0 env.now content
        let result := MigrationResult.from_soft_applied applied dryrun
        if dryrun then
          Runner.softApplyLoop env target_version dryrun rest (results ++ [result]) st1
        else
          Runner.softApplyLoop env target_version dryrun rest (results ++ [result])
            { st1 with history := st1.history ++ [applied]
                       trace := st1.trace ++ [.insertApplied applied] }

/-- `Runner::run_soft_apply`. -/
def Runner.run_soft_apply (env : Env) (source : List Migration)
    (target_version : Option Int) (dryrun : Bool) (st : DbState) :
    Except Error Report × DbState :=
  match Runner.validate_source source st with
  | .error e => (.error e, st)
  | .ok _ =>
    let last_applied := latest_version st.history
    match Runner.validate_target source last_applied target_version with
    | .error e => (.error e, st)
    | .ok _ =>
      Runner.softApplyLoop env target_version dryrun (migration_set source last_applied) [] st

/-- `Runner::list_applied`: validate source sync, then project
`previously_applied()` into `Applied` results with no execution. -/
def Runner.list_applied (source : List Migration) (st : DbState) :
    Except Error Report × DbState :=
  match Runner.validate_source source st with
  | .error e => (.error e, st)
  | .ok _ =>
    (.ok ⟨st.history.map (fun a => MigrationResult.from_applied a none)⟩, st)

/-! ### Spec-side descriptions used by the claims -/

/-- The source set is strictly ascending in version.  `tern-derive` guarantees
this for the generated `vec![...]`: `parse.rs` sorts the sources by version
and its `Validator` rejects duplicate versions. -/
def sortedByVersion (ms : List Migration) : Prop :=
  ms.Pairwise (fun a b => a.id.version < b.id.version)

instance (ms : List Migration) : Decidable (sortedByVersion ms) := by
  unfold sortedByVersion
  infer_instance

/-- The migrations a run with the given last-applied and target versions
should process: version strictly above `last` (all when `last` is `none`)
and at most `target` (unbounded when `target` is `none`), in source order. -/
def selectedMigrations (source : List Migration) (last target : Option Int) :
    List Migration :=
  source.filter (fun m =>
    (match last with | none => true | some v => decide (v < m.id.version)) &&
    (match target with | none => true | some t => decide (m.id.version ≤ t)))

/-- Whether a migration would build and execute successfully in `env`. -/
def migOk (env : Env) (m : Migration) : Bool :=
  match m.build_result with
  | .error _ => false
  | .ok q => (env.execFail m.no_tx q).isNone

/-- The query a migration's `build` resolves to (meaningful when
`build_result` is `ok`). -/
def builtQ (m : Migration) : Query :=
  match m.build_result with
  | .ok q => q
  | .error _ => ⟨""⟩

/-- The history row a successful `context.apply` inserts for `m`. -/
def appliedRow (env : Env) (m : Migration) : AppliedMigration :=
  m.to_applied env.dur env.now (builtQ m).sql

/-- The report entry a successful `run_apply` records for `m`. -/
def appliedResult (env : Env) (m : Migration) : MigrationResult :=
  MigrationResult.from_applied (appliedRow env m) (some m.no_tx)

/-- The calls a successful non-dry apply of `m` makes, in order. -/
def applyEvents (env : Env) (m : Migration) : List Event :=
  [.builtQuery m.id, execEvent m.no_tx (builtQ m), .insertApplied (appliedRow env m)]

/-- The calls a failed apply attempt of `m` makes: the build, then — only
when the build succeeded — the execution that failed. -/
def failEvents (m : Migration) : List Event :=
  match m.build_result with
  | .error _ => [.builtQuery m.id]
  | .ok q => [.builtQuery m.id, execEvent m.no_tx q]

/-- The error `run_apply` wraps into `Partial` when applying `m` fails:
`tern_migration_result` wraps the error from `context.apply` — the raw build
error, or the `ExecuteMigration` already produced for a failed execution —
into another `ExecuteMigration`. -/
def failErr (env : Env) (m : Migration) : Error :=
  .ExecuteMigration
    (match m.build_result with
     | .error e => e
     | .ok q => .ExecuteMigration (.Backend ((env.execFail m.no_tx q).getD "")) m.id m.no_tx)
    m.id m.no_tx

/-- The history row `run_soft_apply` records for `m`. -/
def softRow (env : Env) (m : Migration) : AppliedMigration :=
  m.to_applied 0 env.now ("-- SOFT APPLIED:\n\n" ++ (builtQ m).sql ++ "\n")

/-- The set difference `history ids \ source ids` exactly as
`Runner::validate_source` computes it. -/
def outOfSyncIds (source : List Migration) (st : DbState) : List MigrationId :=
  ((st.history.map AppliedMigration.toMigrationId).dedup).filter
    (fun i => decide (i ∉ ((migration_set source none).map Migration.id).dedup))

/-! ### Sorting lemmas -/

theorem insertByVersion_of_lt (m : Migration) (l : List Migration)
    (h : ∀ y ∈ l, m.id.version < y.id.version) : insertByVersion m l = m :: l := by
  cases l with
  | nil => rfl
  | cons x xs =>
    have hx := h x (List.mem_cons_self _ _)
    have hnle : ¬ x.id.version ≤ m.id.version := not_le.mpr hx
    simp [insertByVersion, hnle]

theorem sortByVersion_of_sorted {l : List Migration} (h : sortedByVersion l) :
    sortByVersion l = l := by
  induction l with
  | nil => rfl
  | cons x xs ih =>
    rcases List.pairwise_cons.mp h with ⟨hx, hxs⟩
    simp only [sortByVersion, ih hxs]
    exact insertByVersion_of_lt x xs hx

theorem insertByVersion_perm (m : Migration) (l : List Migration) :
    (insertByVersion m l).Perm (m :: l) := by
  induction l with
  | nil => exact List.Perm.refl _
  | cons x xs ih =>
    by_cases hx : x.id.version ≤ m.id.version
    · simpa [insertByVersion, hx] using ((ih.cons x).trans (List.Perm.swap m x xs))
    · simp [insertByVersion, hx]

theorem sortByVersion_perm (l : List Migration) : (sortByVersion l).Perm l := by
  induction l with
  | nil => exact List.Perm.refl _
  | cons x xs ih =>
    exact (insertByVersion_perm x (sortByVersion xs)).trans (ih.cons x)

theorem mem_sortByVersion {m : Migration} {l : List Migration} :
    m ∈ sortByVersion l ↔ m ∈ l :=
  (sortByVersion_perm l).mem_iff

theorem dropWhile_le_eq_filter_gt (v : Int) {l : List Migration}
    (h : sortedByVersion l) :
    l.dropWhile (fun m => decide (m.id.version ≤ v))
      = l.filter (fun m => decide (v < m.id.version)) := by
  induction l with
  | nil => rfl
  | cons x xs ih =>
    rcases List.pairwise_cons.mp h with ⟨hx, hxs⟩
    by_cases hxv : x.id.version ≤ v
    · simp only [List.dropWhile_cons, List.filter_cons, decide_eq_true_eq, hxv]
      simp only [if_pos hxv, ih hxs]
      have : ¬ v < x.id.version := not_lt.mpr hxv
      simp [this]
    · have hvx : v < x.id.version := lt_of_not_ge hxv
      simp only [List.dropWhile_cons, List.filter_cons]
      have h1 : ¬ (decide (x.id.version ≤ v) = true) := by simpa using hxv
      have hall : xs.filter (fun m => decide (v < m.id.version)) = xs := by
        apply List.filter_eq_self.mpr
        intro a ha
        have := hx a ha
        simpa using lt_trans hvx this
      simp [hxv, hvx, hall]

theorem sortedByVersion_filter (p : Migration → Bool) {l : List Migration}
    (h : sortedByVersion l) : sortedByVersion (l.filter p) :=
  List.Pairwise.filter p h

theorem migration_set_none_of_sorted {source : List Migration}
    (h : sortedByVersion source) : migration_set source none = source :=
  sortByVersion_of_sorted h

theorem migration_set_some_of_sorted (v : Int) {source : List Migration}
    (h : sortedByVersion source) :
    migration_set source (some v)
      = source.filter (fun m => decide (v < m.id.version)) := by
  show MigrationSet.new _ = _
  unfold MigrationSet.new
  rw [dropWhile_le_eq_filter_gt v h]
  exact sortByVersion_of_sorted (sortedByVersion_filter _ h)

theorem takeWhile_le_eq_filter_le (t : Int) {l : List Migration}
    (h : sortedByVersion l) :
    l.takeWhile (fun m => decide (m.id.version ≤ t))
      = l.filter (fun m => decide (m.id.version ≤ t)) := by
  induction l with
  | nil => rfl
  | cons x xs ih =>
    rcases List.pairwise_cons.mp h with ⟨hx, hxs⟩
    by_cases hxt : x.id.version ≤ t
    · simp [List.takeWhile_cons, List.filter_cons, hxt, ih hxs]
    · have hrest : xs.filter (fun m => decide (m.id.version ≤ t)) = [] := by
        apply List.filter_eq_nil_iff.mpr
        intro a ha
        have := hx a ha
        simp only [decide_eq_true_eq]
        omega
      simp [List.takeWhile_cons, List.filter_cons, hxt, hrest]

/-! ### Validation lemmas -/

theorem validate_source_eq (source : List Migration) (st : DbState) :
    Runner.validate_source source st =
      (if (outOfSyncIds source st).isEmpty then .ok ()
       else .error (.OutOfSync (outOfSyncIds source st)
         "version/name applied but missing in source")) := rfl

theorem validate_source_ok_iff {source : List Migration} {st : DbState} :
    Runner.validate_source source st = .ok () ↔
      ∀ a ∈ st.history, a.toMigrationId ∈ source.map Migration.id := by
  rw [validate_source_eq]
  by_cases hempty : (outOfSyncIds source st).isEmpty
  · simp only [if_pos hempty, true_iff]
    rw [List.isEmpty_iff] at hempty
    have hall := List.filter_eq_nil_iff.mp hempty
    intro a ha
    have hmem : a.toMigrationId ∈ (st.history.map AppliedMigration.toMigrationId).dedup := by
      rw [List.mem_dedup]
      exact List.mem_map_of_mem _ ha
    have := hall _ hmem
    simp only [decide_eq_true_eq, not_not] at this
    rw [List.mem_dedup, List.mem_map] at this
    rcases this with ⟨m, hm, hid⟩
    rw [List.mem_map]
    exact ⟨m, mem_sortByVersion.mp hm, hid⟩
  · rw [if_neg hempty]
    constructor
    · intro hcontra
      exact absurd hcontra (by simp)
    · intro hsync
      exfalso
      apply hempty
      rw [List.isEmpty_iff]
      apply List.filter_eq_nil_iff.mpr
      intro i hi
      rw [List.mem_dedup, List.mem_map] at hi
      rcases hi with ⟨a, ha, hia⟩
      have := hsync a ha
      rw [List.mem_map] at this
      rcases this with ⟨m, hm, hid⟩
      simp only [decide_eq_true_eq, not_not]
      rw [List.mem_dedup, List.mem_map]
      exact ⟨m, mem_sortByVersion.mpr hm, hia ▸ hid⟩

theorem validate_source_err_of_ne {source : List Migration} {st : DbState}
    (h : outOfSyncIds source st ≠ []) :
    Runner.validate_source source st
      = .error (.OutOfSync (outOfSyncIds source st)
          "version/name applied but missing in source") := by
  rw [validate_source_eq, if_neg]
  simpa [List.isEmpty_iff] using h

/-- Membership in `outOfSyncIds` is exactly the set difference of history ids
and source ids. -/
theorem mem_outOfSyncIds_iff {source : List Migration} {st : DbState} {i : MigrationId} :
    i ∈ outOfSyncIds source st ↔
      (∃ a ∈ st.history, a.toMigrationId = i) ∧ i ∉ source.map Migration.id := by
  unfold outOfSyncIds
  rw [List.mem_filter, List.mem_dedup, List.mem_map]
  constructor
  · rintro ⟨⟨a, ha, hai⟩, hns⟩
    refine ⟨⟨a, ha, hai⟩, ?_⟩
    simp only [decide_eq_true_eq] at hns
    intro hmem
    apply hns
    rw [List.mem_dedup]
    rw [List.mem_map] at hmem ⊢
    rcases hmem with ⟨m, hm, hid⟩
    exact ⟨m, mem_sortByVersion.mpr hm, hid⟩
  · rintro ⟨⟨a, ha, hai⟩, hns⟩
    refine ⟨⟨a, ha, hai⟩, ?_⟩
    simp only [decide_eq_true_eq]
    intro hmem
    apply hns
    rw [List.mem_dedup] at hmem
    rw [List.mem_map] at hmem ⊢
    rcases hmem with ⟨m, hm, hid⟩
    exact ⟨m, mem_sortByVersion.mp hm, hid⟩

/-! ### `latest_version` lemmas -/

theorem latest_version_foldl (h : List AppliedMigration) : ∀ v0 : Int,
    ∃ v, h.foldl
        (fun acc m =>
          match acc with
          | none => some m.version
          | some v => if m.version > v then some m.version else acc)
        (some v0) = some v
      ∧ (v = v0 ∨ ∃ a ∈ h, a.version = v) ∧ v0 ≤ v ∧ ∀ a ∈ h, a.version ≤ v := by
  induction h with
  | nil => exact fun v0 => ⟨v0, rfl, Or.inl rfl, le_refl _, by simp⟩
  | cons a t ih =>
    intro v0
    by_cases hgt : a.version > v0
    · rcases ih a.version with ⟨v, hfold, hor, hle, hall⟩
      refine ⟨v, ?_, ?_, by omega, ?_⟩
      · simpa [hgt] using hfold
      · rcases hor with h1 | ⟨b, hb, hbv⟩
        · exact Or.inr ⟨a, List.mem_cons_self _ _, h1.symm⟩
        · exact Or.inr ⟨b, List.mem_cons_of_mem _ hb, hbv⟩
      · intro b hb
        rcases List.mem_cons.mp hb with rfl | hbt
        · exact hle
        · exact hall b hbt
    · rcases ih v0 with ⟨v, hfold, hor, hle, hall⟩
      refine ⟨v, ?_, ?_, hle, ?_⟩
      · simpa [hgt] using hfold
      · rcases hor with h1 | ⟨b, hb, hbv⟩
        · exact Or.inl h1
        · exact Or.inr ⟨b, List.mem_cons_of_mem _ hb, hbv⟩
      · intro b hb
        rcases List.mem_cons.mp hb with rfl | hbt
        · omega
        · exact hall b hbt

theorem latest_version_nil : latest_version [] = none := rfl

theorem latest_version_cons_isSome (a : AppliedMigration) (t : List AppliedMigration) :
    ∃ v, latest_version (a :: t) = some v := by
  unfold latest_version
  rcases latest_version_foldl t a.version with ⟨v, hfold, -⟩
  exact ⟨v, by simpa using hfold⟩

theorem latest_version_none_iff {h : List AppliedMigration} :
    latest_version h = none ↔ h = [] := by
  cases h with
  | nil => simp [latest_version_nil]
  | cons a t =>
    rcases latest_version_cons_isSome a t with ⟨v, hv⟩
    simp [hv]

theorem latest_version_spec {h : List AppliedMigration} {v : Int}
    (hv : latest_version h = some v) :
    (∃ a ∈ h, a.version = v) ∧ ∀ a ∈ h, a.version ≤ v := by
  cases h with
  | nil => exact absurd hv (by simp [latest_version_nil])
  | cons a t =>
    rcases latest_version_foldl t a.version with ⟨w, hfold, hor, hle, hall⟩
    have hw : latest_version (a :: t) = some w := by
      unfold latest_version
      simpa using hfold
    have hvw : v = w := by rw [hv] at hw; exact (Option.some.injEq _ _ ▸ hw).symm ▸ rfl
    subst hvw
    constructor
    · rcases hor with h1 | ⟨b, hb, hbv⟩
      · exact ⟨a, List.mem_cons_self _ _, h1.symm⟩
      · exact ⟨b, List.mem_cons_of_mem _ hb, hbv⟩
    · intro b hb
      rcases List.mem_cons.mp hb with rfl | hbt
      · exact hle
      · exact hall b hbt

/-! ### Loop lemmas for `run_apply` / `run_soft_apply` -/

/-- Breaking the loop past an explicit target processes exactly the
`takeWhile (version ≤ target)` prefix. -/
theorem applyLoop_target_eq (env : Env) (t : Int) (dryrun : Bool) :
    ∀ (l : List Migration) (results : List MigrationResult) (st : DbState),
    Runner.applyLoop env (some t) dryrun l results st
      = Runner.applyLoop env none dryrun
          (l.takeWhile (fun m => decide (m.id.version ≤ t))) results st := by
  intro l
  induction l with
  | nil => intro results st; rfl
  | cons m rest ih =>
    intro results st
    by_cases hmt : m.id.version > t
    · have hnle : ¬ (m.id.version ≤ t) := by omega
      simp [Runner.applyLoop, List.takeWhile_cons, hmt, hnle]
    · have hle : m.id.version ≤ t := by omega
      cases dryrun with
      | true =>
        cases hb : m.build_result with
        | error e => simp [Runner.applyLoop, List.takeWhile_cons, hle, hmt, hb]
        | ok q => simp [Runner.applyLoop, List.takeWhile_cons, hle, hmt, hb, ih]
      | false =>
        rcases happ : MigrationContext.apply env st m with ⟨r1, st1⟩
        cases r1 with
        | error e => simp [Runner.applyLoop, List.takeWhile_cons, hle, hmt, happ]
        | ok applied => simp [Runner.applyLoop, List.takeWhile_cons, hle, hmt, happ, ih]

theorem softApplyLoop_target_eq (env : Env) (t : Int) (dryrun : Bool) :
    ∀ (l : List Migration) (results : List MigrationResult) (st : DbState),
    Runner.softApplyLoop env (some t) dryrun l results st
      = Runner.softApplyLoop env none dryrun
          (l.takeWhile (fun m => decide (m.id.version ≤ t))) results st := by
  intro l
  induction l with
  | nil => intro results st; rfl
  | cons m rest ih =>
    intro results st
    by_cases hmt : m.id.version > t
    · have hnle : ¬ (m.id.version ≤ t) := by omega
      simp [Runner.softApplyLoop, List.takeWhile_cons, hmt, hnle]
    · have hle : m.id.version ≤ t := by omega
      cases hb : m.build_result with
      | error e => simp [Runner.softApplyLoop, List.takeWhile_cons, hle, hmt, hb]
      | ok q =>
        cases dryrun with
        | true => simp [Runner.softApplyLoop, List.takeWhile_cons, hle, hmt, hb, ih]
        | false => simp [Runner.softApplyLoop, List.takeWhile_cons, hle, hmt, hb, ih]

/-- A run in which every processed migration builds and executes successfully
appends one `Applied` result, one history row, and one build–execute–insert
call triple per migration, in list order. -/
theorem applyLoop_ok_of_all (env : Env) :
    ∀ (l : List Migration), (∀ m ∈ l, migOk env m = true) →
    ∀ (results : List MigrationResult) (st : DbState),
    Runner.applyLoop env none false l results st
      = (.ok ⟨results ++ l.map (appliedResult env)⟩,
         ⟨st.history ++ l.map (appliedRow env), st.trace ++ l.flatMap (applyEvents env)⟩) := by
  intro l
  induction l with
  | nil =>
    intro _ results st
    simp [Runner.applyLoop]
  | cons m rest ih =>
    intro hl results st
    have hm := hl m (List.mem_cons_self _ _)
    have hrest := fun x hx => hl x (List.mem_cons_of_mem _ hx)
    cases hb : m.build_result with
    | error e => simp [migOk, hb] at hm
    | ok q =>
      have hq : (env.execFail m.no_tx q).isNone = true := by simpa [migOk, hb] using hm
      rw [Option.isNone_iff_eq_none] at hq
      have happly : MigrationContext.apply env st m
          = (.ok (m.to_applied env.dur env.now q.sql),
             ⟨st.history ++ [m.to_applied env.dur env.now q.sql],
              st.trace ++ [.builtQuery m.id, execEvent m.no_tx q,
                .insertApplied (m.to_applied env.dur env.now q.sql)]⟩) := by
        simp [MigrationContext.apply, hb, hq]
      have hbq : builtQ m = q := by simp [builtQ, hb]
      simp only [Runner.applyLoop, if_neg (by simp : ¬ ((false : Bool) = true)),
        Bool.false_eq_true, if_false, happly]
      rw [ih hrest]
      simp [appliedResult, appliedRow, applyEvents, hbq, hb]

/-- A processed migration that fails to build or execute after a prefix of
successes stops the loop at once: the error wraps exactly the prefix results,
the history gains exactly the prefix rows, and the trace shows the prefix
calls followed by the failing attempt — nothing for any later migration. -/
theorem applyLoop_err_at (env : Env) :
    ∀ (pre : List Migration), (∀ m ∈ pre, migOk env m = true) →
    ∀ (bad : Migration), migOk env bad = false →
    ∀ (rest : List Migration) (results : List MigrationResult) (st : DbState),
    Runner.applyLoop env none false (pre ++ bad :: rest) results st
      = (.error (.Partial (failErr env bad) ⟨results ++ pre.map (appliedResult env)⟩),
         ⟨st.history ++ pre.map (appliedRow env),
          st.trace ++ pre.flatMap (applyEvents env) ++ failEvents bad⟩) := by
  intro pre
  induction pre with
  | nil =>
    intro _ bad hbad rest results st
    cases hb : bad.build_result with
    | error e =>
      have happly : MigrationContext.apply env st bad
          = (.error e, ⟨st.history, st.trace ++ [.builtQuery bad.id]⟩) := by
        simp [MigrationContext.apply, hb]
      simp [Runner.applyLoop, happly, failErr, failEvents, hb]
    | ok q =>
      have hq : (env.execFail bad.no_tx q).isSome = true := by
        simpa [migOk, hb] using hbad
      rcases Option.isSome_iff_exists.mp hq with ⟨msg, hmsg⟩
      have happly : MigrationContext.apply env st bad
          = (.error (.ExecuteMigration (.Backend msg) bad.id bad.no_tx),
             ⟨st.history, st.trace ++ [.builtQuery bad.id, execEvent bad.no_tx q]⟩) := by
        simp [MigrationContext.apply, hb, hmsg]
      simp [Runner.applyLoop, happly, failErr, failEvents, hb, hmsg]
  | cons m pre' ih =>
    intro hpre bad hbad rest results st
    have hm := hpre m (List.mem_cons_self _ _)
    have hpre' := fun x hx => hpre x (List.mem_cons_of_mem _ hx)
    cases hb : m.build_result with
    | error e => simp [migOk, hb] at hm
    | ok q =>
      have hq : (env.execFail m.no_tx q).isNone = true := by simpa [migOk, hb] using hm
      rw [Option.isNone_iff_eq_none] at hq
      have happly : MigrationContext.apply env st m
          = (.ok (m.to_applied env.dur env.now q.sql),
             ⟨st.history ++ [m.to_applied env.dur env.now q.sql],
              st.trace ++ [.builtQuery m.id, execEvent m.no_tx q,
                .insertApplied (m.to_applied env.dur env.now q.sql)]⟩) := by
        simp [MigrationContext.apply, hb, hq]
      have hbq : builtQ m = q := by simp [builtQ, hb]
      simp only [List.cons_append, Runner.applyLoop,
        if_neg (by simp : ¬ ((false : Bool) = true)), Bool.false_eq_true, if_false, happly]
      simp only [List.append_eq]
      rw [ih hpre' bad hbad rest]
      simp [appliedResult, appliedRow, applyEvents, hbq, hb]

/-- Whether `Migration::build` succeeds for this run. -/
def buildsOk (m : Migration) : Bool :=
  match m.build_result with
  | .ok _ => true
  | .error _ => false

/-- A dry run only builds: it records one `Unapplied` result carrying the
resolved SQL per processed migration, leaves the history untouched, and the
only calls traced are the builds. -/
theorem applyLoop_dry_of_builds (env : Env) :
    ∀ (l : List Migration), (∀ m ∈ l, buildsOk m = true) →
    ∀ (results : List MigrationResult) (st : DbState),
    Runner.applyLoop env none true l results st
      = (.ok ⟨results ++ l.map (fun m => MigrationResult.from_unapplied m (builtQ m).sql)⟩,
         ⟨st.history, st.trace ++ l.map (fun m => .builtQuery m.id)⟩) := by
  intro l
  induction l with
  | nil =>
    intro _ results st
    simp [Runner.applyLoop]
  | cons m rest ih =>
    intro hl results st
    have hm := hl m (List.mem_cons_self _ _)
    have hrest := fun x hx => hl x (List.mem_cons_of_mem _ hx)
    cases hb : m.build_result with
    | error e => simp [buildsOk, hb] at hm
    | ok q =>
      have hbq : builtQ m = q := by simp [builtQ, hb]
      simp only [Runner.applyLoop, if_neg (by simp : ¬ ((false : Bool) = true)), if_true, hb]
      rw [ih hrest]
      simp [hbq]

/-- A soft apply builds, never executes, and — exactly when it is not a dry
run — inserts the zero-duration `"-- SOFT APPLIED:"` row for each processed
migration via `insert_applied`. -/
theorem softApplyLoop_of_builds (env : Env) (dryrun : Bool) :
    ∀ (l : List Migration), (∀ m ∈ l, buildsOk m = true) →
    ∀ (results : List MigrationResult) (st : DbState),
    Runner.softApplyLoop env none dryrun l results st
      = (.ok ⟨results ++ l.map (fun m => MigrationResult.from_soft_applied (softRow env m) dryrun)⟩,
         ⟨st.history ++ (if dryrun then [] else l.map (softRow env)),
          st.trace ++ l.flatMap
            (fun m => .builtQuery m.id :: if dryrun then [] else [.insertApplied (softRow env m)])⟩) := by
  intro l
  induction l with
  | nil =>
    intro _ results st
    cases dryrun <;> simp [Runner.softApplyLoop]
  | cons m rest ih =>
    intro hl results st
    have hm := hl m (List.mem_cons_self _ _)
    have hrest := fun x hx => hl x (List.mem_cons_of_mem _ hx)
    cases hb : m.build_result with
    | error e => simp [buildsOk, hb] at hm
    | ok q =>
      have hbq : builtQ m = q := by simp [builtQ, hb]
      have hrow : m.to_applied 0 env.now ("-- SOFT APPLIED:\n\n" ++ q.sql ++ "\n")
          = softRow env m := by
        simp [softRow, hbq]
      cases dryrun with
      | true =>
        simp only [Runner.softApplyLoop, if_neg (by simp : ¬ ((false : Bool) = true)),
          if_true, hb]
        rw [ih hrest]
        simp [hrow]
      | false =>
        simp only [Runner.softApplyLoop, if_neg (by simp : ¬ ((false : Bool) = true)),
          Bool.false_eq_true, if_false, hb]
        rw [ih hrest]
        simp [hrow]


/-- If the non-dry loop returned a report, every processed migration built
and executed successfully. -/
theorem applyLoop_ok_inv (env : Env) :
    ∀ (l : List Migration) (results : List MigrationResult) (st : DbState)
      (r : Report) (st' : DbState),
    Runner.applyLoop env none false l results st = (.ok r, st') →
    ∀ m ∈ l, migOk env m = true := by
  intro l
  induction l with
  | nil => intro _ _ _ _ _ m hm; exact absurd hm (List.not_mem_nil m)
  | cons m rest ih =>
    intro results st r st' hrun x hx
    cases hb : m.build_result with
    | error e =>
      exfalso
      rw [show Runner.applyLoop env none false (m :: rest) results st
          = (.error (.Partial (.ExecuteMigration e m.id m.no_tx) ⟨results⟩),
             ⟨st.history, st.trace ++ [.builtQuery m.id]⟩)
        from by
          have happly : MigrationContext.apply env st m
              = (.error e, ⟨st.history, st.trace ++ [.builtQuery m.id]⟩) := by
            simp [MigrationContext.apply, hb]
          simp [Runner.applyLoop, happly]] at hrun
      exact absurd (Prod.mk.inj hrun).1 (by simp)
    | ok q =>
      cases hq : env.execFail m.no_tx q with
      | some msg =>
        exfalso
        rw [show Runner.applyLoop env none false (m :: rest) results st
            = (.error (.Partial
                 (.ExecuteMigration (.ExecuteMigration (.Backend msg) m.id m.no_tx) m.id m.no_tx)
                 ⟨results⟩),
               ⟨st.history, st.trace ++ [.builtQuery m.id, execEvent m.no_tx q]⟩)
          from by
            have happly : MigrationContext.apply env st m
                = (.error (.ExecuteMigration (.Backend msg) m.id m.no_tx),
                   ⟨st.history, st.trace ++ [.builtQuery m.id, execEvent m.no_tx q]⟩) := by
              simp [MigrationContext.apply, hb, hq]
            simp [Runner.applyLoop, happly]] at hrun
        exact absurd (Prod.mk.inj hrun).1 (by simp)
      | none =>
        rcases List.mem_cons.mp hx with rfl | hxr
        · simp [migOk, hb, hq]
        · rw [show Runner.applyLoop env none false (m :: rest) results st
              = Runner.applyLoop env none false rest
                  (results ++ [MigrationResult.from_applied
                    (m.to_applied env.dur env.now q.sql) (some m.no_tx)])
                  ⟨st.history ++ [m.to_applied env.dur env.now q.sql],
                   st.trace ++ [.builtQuery m.id, execEvent m.no_tx q,
                     .insertApplied (m.to_applied env.dur env.now q.sql)]⟩
            from by
              have happly : MigrationContext.apply env st m
                  = (.ok (m.to_applied env.dur env.now q.sql),
                     ⟨st.history ++ [m.to_applied env.dur env.now q.sql],
                      st.trace ++ [.builtQuery m.id, execEvent m.no_tx q,
                        .insertApplied (m.to_applied env.dur env.now q.sql)]⟩) := by
                simp [MigrationContext.apply, hb, hq]
              simp [Runner.applyLoop, happly]] at hrun
          exact ih _ _ _ _ hrun x hxr

/-- Every error exit of the apply loop (no explicit target) is a `Partial`. -/
theorem applyLoop_err_shape_none (env : Env) (dryrun : Bool) :
    ∀ (l : List Migration) (results : List MigrationResult) (st : DbState)
      (e : Error) (st' : DbState),
    Runner.applyLoop env none dryrun l results st = (.error e, st') →
    ∃ src rep, e = .Partial src rep := by
  intro l
  induction l with
  | nil =>
    intro results st e st' h
    exact absurd (Prod.mk.inj h).1 (by simp [Runner.applyLoop])
  | cons m rest ih =>
    intro results st e st' h
    cases hd : dryrun with
    | true =>
      subst hd
      cases hb : m.build_result with
      | error e0 =>
        rw [show Runner.applyLoop env none true (m :: rest) results st
            = (.error (.Partial e0 ⟨results⟩),
               ⟨st.history, st.trace ++ [.builtQuery m.id]⟩)
          from by simp [Runner.applyLoop, hb]] at h
        have h1 := (Prod.mk.inj h).1
        exact ⟨e0, ⟨results⟩, (Except.error.inj h1).symm⟩
      | ok q =>
        rw [show Runner.applyLoop env none true (m :: rest) results st
            = Runner.applyLoop env none true rest
                (results ++ [MigrationResult.from_unapplied m q.sql])
                ⟨st.history, st.trace ++ [.builtQuery m.id]⟩
          from by simp [Runner.applyLoop, hb]] at h
        exact ih _ _ _ _ h
    | false =>
      subst hd
      rcases happ : MigrationContext.apply env st m with ⟨r1, st1⟩
      cases r1 with
      | error e0 =>
        rw [show Runner.applyLoop env none false (m :: rest) results st
            = (.error (.Partial (.ExecuteMigration e0 m.id m.no_tx) ⟨results⟩), st1)
          from by simp [Runner.applyLoop, happ]] at h
        have h1 := (Prod.mk.inj h).1
        exact ⟨.ExecuteMigration e0 m.id m.no_tx, ⟨results⟩, (Except.error.inj h1).symm⟩
      | ok applied =>
        rw [show Runner.applyLoop env none false (m :: rest) results st
            = Runner.applyLoop env none false rest
                (results ++ [MigrationResult.from_applied applied (some m.no_tx)]) st1
          from by simp [Runner.applyLoop, happ]] at h
        exact ih _ _ _ _ h

/-- Every error exit of the apply loop is a `Partial`, for any target. -/
theorem applyLoop_err_shape (env : Env) (target : Option Int) (dryrun : Bool)
    (l : List Migration) (results : List MigrationResult) (st : DbState)
    (e : Error) (st' : DbState)
    (h : Runner.applyLoop env target dryrun l results st = (.error e, st')) :
    ∃ src rep, e = .Partial src rep := by
  cases target with
  | none => exact applyLoop_err_shape_none env dryrun l results st e st' h
  | some t =>
    rw [applyLoop_target_eq] at h
    exact applyLoop_err_shape_none env dryrun _ results st e st' h

/-- Every error exit of the soft-apply loop (no explicit target) is a
`Partial`. -/
theorem softApplyLoop_err_shape_none (env : Env) (dryrun : Bool) :
    ∀ (l : List Migration) (results : List MigrationResult) (st : DbState)
      (e : Error) (st' : DbState),
    Runner.softApplyLoop env none dryrun l results st = (.error e, st') →
    ∃ src rep, e = .Partial src rep := by
  intro l
  induction l with
  | nil =>
    intro results st e st' h
    exact absurd (Prod.mk.inj h).1 (by simp [Runner.softApplyLoop])
  | cons m rest ih =>
    intro results st e st' h
    cases hb : m.build_result with
    | error e0 =>
      rw [show Runner.softApplyLoop env none dryrun (m :: rest) results st
          = (.error (.Partial e0 ⟨results⟩),
             ⟨st.history, st.trace ++ [.builtQuery m.id]⟩)
        from by simp [Runner.softApplyLoop, hb]] at h
      have h1 := (Prod.mk.inj h).1
      exact ⟨e0, ⟨results⟩, (Except.error.inj h1).symm⟩
    | ok q =>
      cases hd : dryrun with
      | true =>
        subst hd
        rw [show Runner.softApplyLoop env none true (m :: rest) results st
            = Runner.softApplyLoop env none true rest
                (results ++ [MigrationResult.from_soft_applied
                  (m.to_applied 0 env.now ("-- SOFT APPLIED:\n\n" ++ q.sql ++ "\n")) true])
                ⟨st.history, st.trace ++ [.builtQuery m.id]⟩
          from by simp [Runner.softApplyLoop, hb]] at h
        exact ih _ _ _ _ h
      | false =>
        subst hd
        rw [show Runner.softApplyLoop env none false (m :: rest) results st
            = Runner.softApplyLoop env none false rest
                (results ++ [MigrationResult.from_soft_applied
                  (m.to_applied 0 env.now ("-- SOFT APPLIED:\n\n" ++ q.sql ++ "\n")) false])
                ⟨st.history ++ [m.to_applied 0 env.now ("-- SOFT APPLIED:\n\n" ++ q.sql ++ "\n")],
                 st.trace ++ [.builtQuery m.id,
                   .insertApplied (m.to_applied 0 env.now ("-- SOFT APPLIED:\n\n" ++ q.sql ++ "\n"))]⟩
          from by simp [Runner.softApplyLoop, hb]] at h
        exact ih _ _ _ _ h

/-- Every error exit of the soft-apply loop is a `Partial`, for any target. -/
theorem softApplyLoop_err_shape (env : Env) (target : Option Int) (dryrun : Bool)
    (l : List Migration) (results : List MigrationResult) (st : DbState)
    (e : Error) (st' : DbState)
    (h : Runner.softApplyLoop env target dryrun l results st = (.error e, st')) :
    ∃ src rep, e = .Partial src rep := by
  cases target with
  | none => exact softApplyLoop_err_shape_none env dryrun l results st e st' h
  | some t =>
    rw [softApplyLoop_target_eq] at h
    exact softApplyLoop_err_shape_none env dryrun _ results st e st' h

/-! ### Reduction of the runner entry points to loops over the selection -/

theorem migration_set_selected {source : List Migration} (hsorted : sortedByVersion source)
    (last : Option Int) (t : Int) :
    (migration_set source last).takeWhile (fun m => decide (m.id.version ≤ t))
      = selectedMigrations source last (some t) := by
  cases last with
  | none =>
    rw [migration_set_none_of_sorted hsorted, takeWhile_le_eq_filter_le t hsorted]
    unfold selectedMigrations
    simp
  | some v =>
    rw [migration_set_some_of_sorted v hsorted,
      takeWhile_le_eq_filter_le t (sortedByVersion_filter _ hsorted),
      List.filter_filter]
    unfold selectedMigrations
    exact List.filter_congr (fun m _ => by simp [Bool.and_comm])

theorem migration_set_selected_none {source : List Migration}
    (hsorted : sortedByVersion source) (last : Option Int) :
    migration_set source last = selectedMigrations source last none := by
  cases last with
  | none =>
    rw [migration_set_none_of_sorted hsorted]
    unfold selectedMigrations
    simp
  | some v =>
    rw [migration_set_some_of_sorted v hsorted]
    unfold selectedMigrations
    simp

theorem run_apply_eq_loop (env : Env) {source : List Migration} {st : DbState}
    (target : Option Int) (dryrun : Bool)
    (hsorted : sortedByVersion source)
    (hsync : Runner.validate_source source st = .ok ())
    (htgt : Runner.validate_target source (latest_version st.history) target = .ok ()) :
    Runner.run_apply env source target dryrun st
      = Runner.applyLoop env none dryrun
          (selectedMigrations source (latest_version st.history) target) [] st := by
  unfold Runner.run_apply
  rw [hsync]
  simp only []
  rw [htgt]
  cases target with
  | none => rw [migration_set_selected_none hsorted]
  | some t =>
    rw [applyLoop_target_eq, migration_set_selected hsorted _ t]

theorem run_soft_apply_eq_loop (env : Env) {source : List Migration} {st : DbState}
    (target : Option Int) (dryrun : Bool)
    (hsorted : sortedByVersion source)
    (hsync : Runner.validate_source source st = .ok ())
    (htgt : Runner.validate_target source (latest_version st.history) target = .ok ()) :
    Runner.run_soft_apply env source target dryrun st
      = Runner.softApplyLoop env none dryrun
          (selectedMigrations source (latest_version st.history) target) [] st := by
  unfold Runner.run_soft_apply
  rw [hsync]
  simp only []
  rw [htgt]
  cases target with
  | none => rw [migration_set_selected_none hsorted]
  | some t =>
    rw [softApplyLoop_target_eq, migration_set_selected hsorted _ t]

/-! ### Lemmas about the statement splitter -/

theorem eq_dropLast_concat_of_getLast? {l : List Char} {c : Char}
    (h : l.getLast? = some c) : l = l.dropLast ++ [c] := by
  cases l with
  | nil => exact absurd h (by simp)
  | cons a t =>
    have hne : (a :: t) ≠ [] := by simp
    have hc : (a :: t).getLast hne = c := by
      rw [List.getLast?_eq_getLast _ hne] at h
      exact Option.some.inj h
    rw [← hc]
    exact (List.dropLast_append_getLast hne).symm

/-- Every statement the splitter emits ends in `";\n"`: the terminating line
ends with `';'`. -/
theorem splitStatementsFold_suffix :
    ∀ (lines : List (List Char)) (buf st), st ∈ splitStatementsFold lines buf →
    [';', '\n'] <:+ st := by
  intro lines
  induction lines with
  | nil => intro buf st h; exact absurd h (List.not_mem_nil st)
  | cons line rest ih =>
    intro buf st h
    by_cases hblank : (trimChars line).isEmpty
    · rw [show splitStatementsFold (line :: rest) buf = splitStatementsFold rest buf
        from by simp [splitStatementsFold, hblank]] at h
      exact ih _ _ h
    · by_cases hsemi : endsWithSemi line
      · rw [show splitStatementsFold (line :: rest) buf
            = (buf ++ line ++ ['\n']) :: splitStatementsFold rest []
          from by simp [splitStatementsFold, hblank, hsemi]] at h
        rcases List.mem_cons.mp h with rfl | h2
        · have hl : line.getLast? = some ';' := by simpa [endsWithSemi] using hsemi
          refine ⟨buf ++ line.dropLast, ?_⟩
          rw [eq_dropLast_concat_of_getLast? hl]
          simp
        · exact ih _ _ h2
      · rw [show splitStatementsFold (line :: rest) buf
            = splitStatementsFold rest (buf ++ line ++ ['\n'])
          from by simp [splitStatementsFold, hblank, hsemi]] at h
        exact ih _ _ h

/-- The emitted statements plus the leftover buffer partition the non-blank
lines exactly: nothing is dropped and nothing is invented. -/
theorem splitStatementsFold_flatten :
    ∀ (lines : List (List Char)) (buf),
    (splitStatementsFold lines buf).flatten ++ splitStatementsResidual lines buf
      = buf ++ (lines.filter (fun l => !(trimChars l).isEmpty)).flatMap (fun l => l ++ ['\n']) := by
  intro lines
  induction lines with
  | nil => intro buf; simp [splitStatementsFold, splitStatementsResidual]
  | cons line rest ih =>
    intro buf
    by_cases hblank : (trimChars line).isEmpty
    · simp only [show splitStatementsFold (line :: rest) buf = splitStatementsFold rest buf
          from by simp [splitStatementsFold, hblank],
        show splitStatementsResidual (line :: rest) buf = splitStatementsResidual rest buf
          from by simp [splitStatementsResidual, hblank]]
      rw [ih buf]
      simp [List.filter_cons, hblank]
    · by_cases hsemi : endsWithSemi line
      · simp only [show splitStatementsFold (line :: rest) buf
            = (buf ++ line ++ ['\n']) :: splitStatementsFold rest []
            from by simp [splitStatementsFold, hblank, hsemi],
          show splitStatementsResidual (line :: rest) buf = splitStatementsResidual rest []
            from by simp [splitStatementsResidual, hblank, hsemi]]
        rw [List.flatten_cons, List.append_assoc, ih []]
        simp [List.filter_cons, hblank]
      · simp only [show splitStatementsFold (line :: rest) buf
            = splitStatementsFold rest (buf ++ line ++ ['\n'])
            from by simp [splitStatementsFold, hblank, hsemi],
          show splitStatementsResidual (line :: rest) buf
            = splitStatementsResidual rest (buf ++ line ++ ['\n'])
            from by simp [splitStatementsResidual, hblank, hsemi]]
        rw [ih (buf ++ line ++ ['\n'])]
        simp [List.filter_cons, hblank]

theorem mem_dropWhile_of_neg {p : Char → Bool} {a : Char} :
    ∀ {l : List Char}, a ∈ l → p a = false → a ∈ l.dropWhile p := by
  intro l
  induction l with
  | nil => intro ha _; cases ha
  | cons x xs ih =>
    intro ha hpa
    by_cases hx : p x
    · rcases List.mem_cons.mp ha with rfl | h2
      · rw [hx] at hpa; cases hpa
      · simpa [List.dropWhile_cons, hx] using ih h2 hpa
    · rw [List.dropWhile_cons, if_neg (by simpa using hx)]
      exact ha

theorem mem_trimChars {a : Char} {l : List Char} (ha : a ∈ l) (hpa : isWs a = false) :
    a ∈ trimChars l := by
  unfold trimChars trimEndChars trimStartChars
  rw [List.mem_reverse]
  apply mem_dropWhile_of_neg _ hpa
  rw [List.mem_reverse]
  exact mem_dropWhile_of_neg ha hpa

theorem trimChars_not_blank_of_semi {l : List Char} (h : l.getLast? = some ';') :
    (trimChars l).isEmpty = false := by
  have hmem : (';' : Char) ∈ l := by
    rw [eq_dropLast_concat_of_getLast? h]
    simp
  have := mem_trimChars hmem (by decide)
  cases htl : trimChars l with
  | nil => rw [htl] at this; cases this
  | cons x xs => rfl

/-- The leftover buffer is empty whenever the final line ends with `';'`. -/
theorem splitStatementsResidual_eq_nil :
    ∀ (lines : List (List Char)) (buf ll : List Char),
    lines.getLast? = some ll → endsWithSemi ll = true →
    splitStatementsResidual lines buf = [] := by
  intro lines
  induction lines with
  | nil => intro buf ll h _; exact absurd h (by simp)
  | cons line rest ih =>
    intro buf ll hlast hsemi
    cases rest with
    | nil =>
      have hll : line = ll := by simpa using hlast
      subst hll
      have hsemi' : line.getLast? = some ';' := by simpa [endsWithSemi] using hsemi
      have hnb := trimChars_not_blank_of_semi hsemi'
      simp [splitStatementsResidual, hnb, hsemi]
    | cons l2 rest2 =>
      have hlast' : (l2 :: rest2).getLast? = some ll := by
        rw [← List.getLast?_cons_cons]
        exact hlast
      by_cases hblank : (trimChars line).isEmpty
      · rw [show splitStatementsResidual (line :: l2 :: rest2) buf
            = splitStatementsResidual (l2 :: rest2) buf
          from by simp [splitStatementsResidual, hblank]]
        exact ih _ _ hlast' hsemi
      · by_cases hs : endsWithSemi line
        · rw [show splitStatementsResidual (line :: l2 :: rest2) buf
              = splitStatementsResidual (l2 :: rest2) []
            from by simp [splitStatementsResidual, hblank, hs]]
          exact ih _ _ hlast' hsemi
        · rw [show splitStatementsResidual (line :: l2 :: rest2) buf
              = splitStatementsResidual (l2 :: rest2) (buf ++ line ++ ['\n'])
            from by simp [splitStatementsResidual, hblank, hs]]
          exact ih _ _ hlast' hsemi

theorem rustLinesAux_ne_nil :
    ∀ (s : List Char) (acc : List Char), s ≠ [] → rustLinesAux s acc ≠ [] := by
  intro s
  induction s with
  | nil => intro acc h; exact absurd rfl h
  | cons c rest ih =>
    intro acc _
    by_cases hc : c = '\n'
    · simp [rustLinesAux, hc]
    · rw [show rustLinesAux (c :: rest) acc = rustLinesAux rest (c :: acc)
        from by simp [rustLinesAux, hc]]
      cases rest with
      | nil => simp [rustLinesAux]
      | cons d rest2 => exact ih _ (by simp)

/-- When the text ends with a character other than `'\n'`, the last line of
`rustLines` ends with that character. -/
theorem rustLinesAux_getLast {c : Char} (hc : ¬ (c = '\n')) :
    ∀ (s : List Char) (acc : List Char), s.getLast? = some c →
    ∃ pre, (rustLinesAux s acc).getLast? = some (pre ++ [c]) := by
  intro s
  induction s with
  | nil => intro acc h; exact absurd h (by simp)
  | cons a rest ih =>
    intro acc hlast
    cases rest with
    | nil =>
      have hac : a = c := by simpa using hlast
      subst hac
      rw [show rustLinesAux [a] acc = [(a :: acc).reverse]
        from by simp [rustLinesAux, hc]]
      exact ⟨acc.reverse, by simp⟩
    | cons b rest2 =>
      have hlast' : (b :: rest2).getLast? = some c := by
        rw [← List.getLast?_cons_cons]
        exact hlast
      by_cases ha : a = '\n'
      · rw [show rustLinesAux (a :: b :: rest2) acc
            = (stripCRrev acc).reverse :: rustLinesAux (b :: rest2) []
          from by simp [rustLinesAux, ha]]
        rcases ih [] hlast' with ⟨pre, hpre⟩
        cases hL : rustLinesAux (b :: rest2) [] with
        | nil => exact absurd hL (rustLinesAux_ne_nil _ _ (by simp))
        | cons x xs =>
          refine ⟨pre, ?_⟩
          rw [List.getLast?_cons_cons, ← hL, hpre]
      · rw [show rustLinesAux (a :: b :: rest2) acc = rustLinesAux (b :: rest2) (a :: acc)
          from by simp [rustLinesAux, ha]]
        exact ih _ hlast'

/-- `sanitize` always terminates its output with `';'`. -/
theorem sanitizeChars_getLast (sql : List Char) :
    (sanitizeChars sql).getLast? = some ';' := by
  unfold sanitizeChars
  by_cases h : endsWithSemi (removeBlockComments
      (List.intercalate ['\n']
        (((rustLines (trimChars sql)).filter
          (fun line => !(startsWithDashDash (trimChars line)) || (trimChars line).isEmpty)).map
          (fun line => trimEndChars (cutAtDashDash line)))))
  · rw [if_pos h]
    simpa [endsWithSemi] using h
  · rw [if_neg h]
    exact List.getLast?_concat _

/-! ### Unfolding lemmas for the runner entry points -/

/-- `validate_target` either accepts or rejects with an `Invalid` error. -/
theorem validate_target_ok_or_invalid (source : List Migration) (last target : Option Int) :
    Runner.validate_target source last target = .ok ()
      ∨ ∃ msg, Runner.validate_target source last target = .error (.Invalid msg) := by
  unfold Runner.validate_target
  split
  · exact Or.inl rfl
  · split
    · exact Or.inl rfl
    · split
      · split
        · exact Or.inr ⟨_, rfl⟩
        · split
          · exact Or.inr ⟨_, rfl⟩
          · exact Or.inl rfl
      · split
        · exact Or.inr ⟨_, rfl⟩
        · exact Or.inl rfl

theorem run_apply_sync_err {source : List Migration} {st : DbState} {e : Error}
    (env : Env) (target : Option Int) (dryrun : Bool)
    (hsync : Runner.validate_source source st = .error e) :
    Runner.run_apply env source target dryrun st = (.error e, st) := by
  unfold Runner.run_apply
  rw [hsync]

theorem run_soft_apply_sync_err {source : List Migration} {st : DbState} {e : Error}
    (env : Env) (target : Option Int) (dryrun : Bool)
    (hsync : Runner.validate_source source st = .error e) :
    Runner.run_soft_apply env source target dryrun st = (.error e, st) := by
  unfold Runner.run_soft_apply
  rw [hsync]

theorem list_applied_sync_err {source : List Migration} {st : DbState} {e : Error}
    (hsync : Runner.validate_source source st = .error e) :
    Runner.list_applied source st = (.error e, st) := by
  unfold Runner.list_applied
  rw [hsync]

theorem run_apply_target_err {source : List Migration} {st : DbState} {e : Error}
    (env : Env) (target : Option Int) (dryrun : Bool)
    (hsync : Runner.validate_source source st = .ok ())
    (htgt : Runner.validate_target source (latest_version st.history) target = .error e) :
    Runner.run_apply env source target dryrun st = (.error e, st) := by
  unfold Runner.run_apply
  rw [hsync]
  simp only []
  rw [htgt]

theorem run_soft_apply_target_err {source : List Migration} {st : DbState} {e : Error}
    (env : Env) (target : Option Int) (dryrun : Bool)
    (hsync : Runner.validate_source source st = .ok ())
    (htgt : Runner.validate_target source (latest_version st.history) target = .error e) :
    Runner.run_soft_apply env source target dryrun st = (.error e, st) := by
  unfold Runner.run_soft_apply
  rw [hsync]
  simp only []
  rw [htgt]

theorem run_apply_unfold {source : List Migration} {st : DbState}
    (env : Env) (target : Option Int) (dryrun : Bool)
    (hsync : Runner.validate_source source st = .ok ())
    (htgt : Runner.validate_target source (latest_version st.history) target = .ok ()) :
    Runner.run_apply env source target dryrun st
      = Runner.applyLoop env target dryrun
          (migration_set source (latest_version st.history)) [] st := by
  unfold Runner.run_apply
  rw [hsync]
  simp only []
  rw [htgt]

theorem run_soft_apply_unfold {source : List Migration} {st : DbState}
    (env : Env) (target : Option Int) (dryrun : Bool)
    (hsync : Runner.validate_source source st = .ok ())
    (htgt : Runner.validate_target source (latest_version st.history) target = .ok ()) :
    Runner.run_soft_apply env source target dryrun st
      = Runner.softApplyLoop env target dryrun
          (migration_set source (latest_version st.history)) [] st := by
  unfold Runner.run_soft_apply
  rw [hsync]
  simp only []
  rw [htgt]

theorem list_applied_unfold {source : List Migration} {st : DbState}
    (hsync : Runner.validate_source source st = .ok ()) :
    Runner.list_applied source st
      = (.ok ⟨st.history.map (fun a => MigrationResult.from_applied a none)⟩, st) := by
  unfold Runner.list_applied
  rw [hsync]

theorem map_data_map_mk (L : List (List Char)) : (L.map String.mk).map String.data = L := by
  induction L with
  | nil => rfl
  | cons x xs ih =>
    rw [List.map_cons, List.map_cons, ih]

/-- Whether `"--"` occurs somewhere in the list. -/
def containsDashDash : List Char → Bool
  | [] => false
  | [_] => false
  | a :: b :: rest => (a = '-' && b = '-') || containsDashDash (b :: rest)

/-! ### Claim theorems -/

/-- C9: `split_statements` returns a finite ordered list of statement strings,
each of which ends with a line terminated by `';'` (concretely, with the
suffix `";\n"`); the concatenation of the returned statements is exactly the
non-blank lines of the sanitized text (comment-stripped per `sanitize`), each
followed by its newline, so no non-empty statement is silently dropped; and
the sanitized text always ends with `';'` — when it does not already, a `';'`
is appended, so the final statement is still emitted. -/
theorem split_statements_self_terminating (q : Query) :
    (∀ s ∈ q.split_statements, [';', '\n'] <:+ s.data) ∧
    (q.split_statements.map String.data).flatten
      = ((rustLines (sanitizeChars q.sql.data)).filter
          (fun l => !(trimChars l).isEmpty)).flatMap (fun l => l ++ ['\n']) ∧
    q.sanitize.data.getLast? = some ';' := by
  refine ⟨?_, ?_, ?_⟩
  · intro s hs
    rcases List.mem_map.mp hs with ⟨l, hl, rfl⟩
    exact splitStatementsFold_suffix _ _ _ hl
  · have hmap : (Query.split_statements q).map String.data = splitStatementsChars q.sql.data := by
      unfold Query.split_statements
      exact map_data_map_mk _
    rw [hmap]
    have hsemi := sanitizeChars_getLast q.sql.data
    rcases rustLinesAux_getLast (by decide) (sanitizeChars q.sql.data) [] hsemi with ⟨pre, hpre⟩
    have hres : splitStatementsResidual (rustLines (sanitizeChars q.sql.data)) [] = [] := by
      apply splitStatementsResidual_eq_nil _ _ (pre ++ [';']) hpre
      simp [endsWithSemi, List.getLast?_concat]
    have := splitStatementsFold_flatten (rustLines (sanitizeChars q.sql.data)) []
    rw [hres, List.append_nil, List.nil_append] at this
    exact this
  · exact sanitizeChars_getLast q.sql.data

/-- Witness for C9 at a concrete query: `"SELECT 1;\nSELECT 2"` splits into
two statements; the first is a member and carries the `";\n"` suffix, and the
sanitizer appended the missing terminator. -/
theorem split_statements_self_terminating_witness :
    ("SELECT 1;\n" : String) ∈ (Query.mk "SELECT 1;\nSELECT 2").split_statements ∧
    [';', '\n'] <:+ ("SELECT 1;\n" : String).data ∧
    (Query.mk "SELECT 1;\nSELECT 2").split_statements = ["SELECT 1;\n", "SELECT 2;\n"] :=
  ⟨by decide,
   (split_statements_self_terminating (Query.mk "SELECT 1;\nSELECT 2")).1 _ (by decide),
   by decide⟩

/-- C10: the sanitizer's line-comment stripping cuts each line at the first
occurrence of `"--"` regardless of context — the prefix before an (unquoted
or quoted) `"--"` is all that survives — so a query whose statement contains
the SQL string literal `'a--b'` is truncated: `split_statements` returns
`["SELECT 'a;\n"]` rather than reproducing the statement text. -/
theorem sanitize_cuts_dashdash_in_literals :
    (∀ pre suf : List Char, containsDashDash pre = false → pre.getLast? ≠ some '-' →
       cutAtDashDash (pre ++ '-' :: '-' :: suf) = pre) ∧
    (Query.mk "SELECT 'a--b';").split_statements = ["SELECT 'a;\n"] ∧
    (Query.mk "SELECT 'a--b';").split_statements ≠ ["SELECT 'a--b';\n"] := by
  refine ⟨?_, by decide, by decide⟩
  intro pre
  induction pre with
  | nil => intro suf _ _; simp [cutAtDashDash]
  | cons a pre' ih =>
    intro suf hcont hlast
    cases pre' with
    | nil =>
      have ha : ¬ (a = '-') := by
        intro h
        exact hlast (by simp [h])
      simp [cutAtDashDash, ha]
    | cons b pre2 =>
      have hcont' : ((a = '-' && b = '-') || containsDashDash (b :: pre2)) = false := by
        simpa [containsDashDash] using hcont
      rw [Bool.or_eq_false_iff] at hcont'
      have hab := hcont'.1
      have hrest := hcont'.2
      have hlast' : (b :: pre2).getLast? ≠ some '-' := by
        rw [← List.getLast?_cons_cons]
        exact hlast
      rw [show (a :: b :: pre2) ++ '-' :: '-' :: suf
          = a :: ((b :: pre2) ++ '-' :: '-' :: suf) from by simp]
      rw [show cutAtDashDash (a :: ((b :: pre2) ++ '-' :: '-' :: suf))
          = a :: cutAtDashDash ((b :: pre2) ++ '-' :: '-' :: suf) from by
        cases pre2 <;> simp [cutAtDashDash, hab]]
      rw [ih suf hrest hlast']

/-- Witness for C10 at a concrete prefix: the text before the `"--"` inside
the literal `'a--b'` contains no `"--"` and does not end in `'-'`, and the
cut keeps exactly that prefix. -/
theorem sanitize_cuts_dashdash_in_literals_witness :
    containsDashDash ("SELECT 'a".data) = false ∧
    cutAtDashDash ("SELECT 'a".data ++ '-' :: '-' :: "b';".data) = "SELECT 'a".data :=
  ⟨by decide,
   sanitize_cuts_dashdash_in_literals.1 _ _ (by decide) (by decide)⟩

/-! ### Concrete fixtures for witnesses -/

/-- Environment in which every execution succeeds. -/
def envOk : Env := { execFail := fun _ _ => none, now := 77, dur := 5 }

def migA : Migration :=
  { id := ⟨1, "one"⟩, content := "SELECT 1;", no_tx := false
    build_result := .ok ⟨"SELECT 1;"⟩ }

def migB : Migration :=
  { id := ⟨2, "two"⟩, content := "SELECT 2;", no_tx := true
    build_result := .ok ⟨"SELECT 2;"⟩ }

def migBad : Migration :=
  { id := ⟨3, "three"⟩, content := "BAD;", no_tx := false
    build_result := .ok ⟨"BAD;"⟩ }

/-- Environment that fails exactly on `migBad`'s query. -/
def envBad : Env :=
  { execFail := fun _ q => if q.sql = "BAD;" then some "boom" else none, now := 77, dur := 5 }

/-- Fresh database: empty history, empty trace. -/
def st0 : DbState := { history := [], trace := [] }

/-- Database whose history has exactly the row for version 2. -/
def st6 : DbState :=
  { history := [{ version := 2, description := "two", content := "SELECT 2;"
                  duration_ms := 5, applied_at := 77 }]
    trace := [] }

/-- C2: `MigrationContext::apply` first builds the query and then executes it,
via `apply_no_tx` when `no_tx` is set and via `apply_tx` otherwise; on
execution failure it returns an `ExecuteMigration` error carrying the
migration's id and `no_tx` flag and writes no history row; on success it
inserts exactly one `AppliedMigration` built from the migration (with the
measured duration and timestamp) and returns that row. -/
theorem context_apply_dispatch_and_record
    (env : Env) (st : DbState) (m : Migration) (q : Query)
    (hq : m.build_result = .ok q) :
    (execEvent m.no_tx q = if m.no_tx then .applyNoTx q else .applyTx q) ∧
    (∀ msg, env.execFail m.no_tx q = some msg →
       MigrationContext.apply env st m
         = (.error (.ExecuteMigration (.Backend msg) m.id m.no_tx),
            { history := st.history
              trace := st.trace ++ [.builtQuery m.id, execEvent m.no_tx q] })) ∧
    (env.execFail m.no_tx q = none →
       MigrationContext.apply env st m
         = (.ok (m.to_applied env.dur env.now q.sql),
            { history := st.history ++ [m.to_applied env.dur env.now q.sql]
              trace := st.trace ++ [.builtQuery m.id, execEvent m.no_tx q,
                .insertApplied (m.to_applied env.dur env.now q.sql)] })) := by
  refine ⟨rfl, ?_, ?_⟩
  · intro msg hmsg
    simp [MigrationContext.apply, hq, hmsg]
  · intro hnone
    simp [MigrationContext.apply, hq, hnone]

/-- Witness for C2: the failing migration produces the doubly-identified
`ExecuteMigration` error, a trace showing build-then-execute, and no history
row; the successful one inserts exactly its row. -/
theorem context_apply_dispatch_and_record_witness :
    migBad.build_result = .ok ⟨"BAD;"⟩ ∧
    MigrationContext.apply envBad st0 migBad
      = (.error (.ExecuteMigration (.Backend "boom") ⟨3, "three"⟩ false),
         { history := [], trace := [.builtQuery ⟨3, "three"⟩, .applyTx ⟨"BAD;"⟩] }) ∧
    MigrationContext.apply envOk st0 migA
      = (.ok { version := 1, description := "one", content := "SELECT 1;"
               duration_ms := 5, applied_at := 77 },
         { history := [{ version := 1, description := "one", content := "SELECT 1;"
                         duration_ms := 5, applied_at := 77 }]
           trace := [.builtQuery ⟨1, "one"⟩, .applyTx ⟨"SELECT 1;"⟩,
             .insertApplied { version := 1, description := "one", content := "SELECT 1;"
                              duration_ms := 5, applied_at := 77 }] }) :=
  ⟨rfl,
   ((context_apply_dispatch_and_record envBad st0 migBad ⟨"BAD;"⟩ rfl).2.1 "boom"
     (by decide)).trans (by decide),
   ((context_apply_dispatch_and_record envOk st0 migA ⟨"SELECT 1;"⟩ rfl).2.2
     (by decide)).trans (by decide)⟩

/-- C5: for `run_apply`, `run_soft_apply` and `list_applied` alike, a
non-empty set difference `history ids \ source ids` fails the call with an
`OutOfSync` error naming exactly that difference and leaves the state — and
hence the history and the call trace — untouched; an empty difference never
produces an `OutOfSync` failure. -/
theorem out_of_sync_detection (env : Env) (source : List Migration) (st : DbState)
    (target : Option Int) (dryrun : Bool) :
    (∀ i, i ∈ outOfSyncIds source st ↔
       (∃ a ∈ st.history, a.toMigrationId = i) ∧ i ∉ source.map Migration.id) ∧
    (outOfSyncIds source st ≠ [] →
       Runner.run_apply env source target dryrun st
         = (.error (.OutOfSync (outOfSyncIds source st)
             "version/name applied but missing in source"), st) ∧
       Runner.run_soft_apply env source target dryrun st
         = (.error (.OutOfSync (outOfSyncIds source st)
             "version/name applied but missing in source"), st) ∧
       Runner.list_applied source st
         = (.error (.OutOfSync (outOfSyncIds source st)
             "version/name applied but missing in source"), st)) ∧
    (outOfSyncIds source st = [] →
       (∀ ids msg st', Runner.run_apply env source target dryrun st
          ≠ (.error (.OutOfSync ids msg), st')) ∧
       (∀ ids msg st', Runner.run_soft_apply env source target dryrun st
          ≠ (.error (.OutOfSync ids msg), st')) ∧
       (∀ ids msg st', Runner.list_applied source st
          ≠ (.error (.OutOfSync ids msg), st'))) := by
  refine ⟨fun i => mem_outOfSyncIds_iff, ?_, ?_⟩
  · intro hne
    have herr := validate_source_err_of_ne hne
    exact ⟨run_apply_sync_err env target dryrun herr,
      run_soft_apply_sync_err env target dryrun herr,
      list_applied_sync_err herr⟩
  · intro hnil
    have hok : Runner.validate_source source st = .ok () := by
      rw [validate_source_eq, hnil]
      rfl
    refine ⟨?_, ?_, ?_⟩
    · intro ids msg st' hcontra
      rcases validate_target_ok_or_invalid source (latest_version st.history) target with
        htgt | ⟨m2, htgt⟩
      · rw [run_apply_unfold env target dryrun hok htgt] at hcontra
        rcases applyLoop_err_shape env target dryrun _ _ _ _ _ hcontra with ⟨src, rep, heq⟩
        cases heq
      · rw [run_apply_target_err env target dryrun hok htgt] at hcontra
        have h1 := (Prod.mk.inj hcontra).1
        simp at h1
    · intro ids msg st' hcontra
      rcases validate_target_ok_or_invalid source (latest_version st.history) target with
        htgt | ⟨m2, htgt⟩
      · rw [run_soft_apply_unfold env target dryrun hok htgt] at hcontra
        rcases softApplyLoop_err_shape env target dryrun _ _ _ _ _ hcontra with ⟨src, rep, heq⟩
        cases heq
      · rw [run_soft_apply_target_err env target dryrun hok htgt] at hcontra
        have h1 := (Prod.mk.inj hcontra).1
        simp at h1
    · intro ids msg st' hcontra
      rw [list_applied_unfold hok] at hcontra
      have h1 := (Prod.mk.inj hcontra).1
      simp at h1

/-- Witness for C5: history holds `MigrationId(2, "second")` but the source
set is only `[migA]`, so all three operations fail with exactly that id; with
the matching source `[migA, migB]` and the same row under its real name the
difference is empty. -/
theorem out_of_sync_detection_witness :
    outOfSyncIds [migA] st6 = [⟨2, "two"⟩] ∧
    Runner.list_applied [migA] st6
      = (.error (.OutOfSync [⟨2, "two"⟩]
          "version/name applied but missing in source"), st6) ∧
    Runner.run_apply envOk [migA] none false st6
      = (.error (.OutOfSync [⟨2, "two"⟩]
          "version/name applied but missing in source"), st6) := by
  have h := (out_of_sync_detection envOk [migA] st6 none false).2.1 (by decide)
  exact ⟨by decide, h.2.2.trans (by decide), h.1.trans (by decide)⟩

theorem maxVersion_isSome {ms : List Migration} (h : ms ≠ []) :
    ∃ mx, MigrationSet.maxVersion ms = some mx := by
  cases ms with
  | nil => exact absurd rfl h
  | cons x xs => exact ⟨_, rfl⟩

/-- C6: with source and history in sync, an explicit target earlier than the
latest applied version, or beyond the largest source version, makes
`run_apply` and `run_soft_apply` fail with an `Invalid` error naming the
offending version, returning the state unchanged — no query is built or
executed. -/
theorem invalid_target_rejected (env : Env) (source : List Migration) (st : DbState)
    (dryrun : Bool) (hsync : outOfSyncIds source st = []) :
    (∀ a t : Int, latest_version st.history = some a → t < a →
       Runner.run_apply env source (some t) dryrun st
         = (.error (.Invalid
             s!"target version V{t} earlier than latest applied version V{a}"), st) ∧
       Runner.run_soft_apply env source (some t) dryrun st
         = (.error (.Invalid
             s!"target version V{t} earlier than latest applied version V{a}"), st)) ∧
    (∀ mx t : Int, MigrationSet.maxVersion (migration_set source none) = some mx → t > mx →
       (∀ a, latest_version st.history = some a → a ≤ t) →
       Runner.run_apply env source (some t) dryrun st
         = (.error (.Invalid
             s!"target version V{t} does not exist, latest version found was V{mx}"), st) ∧
       Runner.run_soft_apply env source (some t) dryrun st
         = (.error (.Invalid
             s!"target version V{t} does not exist, latest version found was V{mx}"), st)) := by
  have hok : Runner.validate_source source st = .ok () := by
    rw [validate_source_eq, hsync]
    rfl
  constructor
  · intro a t hlast hta
    have hne : st.history ≠ [] := by
      intro hnil
      rw [hnil, latest_version_nil] at hlast
      cases hlast
    have hmx : ∃ mx, MigrationSet.maxVersion (migration_set source none) = some mx := by
      apply maxVersion_isSome
      cases hh : st.history with
      | nil => exact absurd hh hne
      | cons a0 rows =>
        have hmem : a0.toMigrationId ∈ source.map Migration.id := by
          apply validate_source_ok_iff.mp hok
          rw [hh]
          exact List.mem_cons_self _ _
        intro hms
        rcases List.mem_map.mp hmem with ⟨m0, hm0, -⟩
        have : m0 ∈ migration_set source none := by
          show m0 ∈ sortByVersion source
          exact mem_sortByVersion.mpr hm0
        rw [hms] at this
        exact absurd this (List.not_mem_nil m0)
    rcases hmx with ⟨mx, hmx⟩
    have htgt : Runner.validate_target source (latest_version st.history) (some t)
        = .error (.Invalid
            s!"target version V{t} earlier than latest applied version V{a}") := by
      unfold Runner.validate_target
      rw [hmx]
      simp only []
      rw [hlast]
      simp only []
      rw [if_pos hta]
    exact ⟨run_apply_target_err env (some t) dryrun hok htgt,
      run_soft_apply_target_err env (some t) dryrun hok htgt⟩
  · intro mx t hmx htmx hnot
    have htgt : Runner.validate_target source (latest_version st.history) (some t)
        = .error (.Invalid
            s!"target version V{t} does not exist, latest version found was V{mx}") := by
      unfold Runner.validate_target
      rw [hmx]
      simp only []
      cases hlast : latest_version st.history with
      | some a =>
        simp only []
        rw [if_neg (by have := hnot a hlast; omega), if_pos htmx]
      | none =>
        simp only []
        rw [if_pos htmx]
    exact ⟨run_apply_target_err env (some t) dryrun hok htgt,
      run_soft_apply_target_err env (some t) dryrun hok htgt⟩

/-- Witness for C6 (spec scenario P4): with version 2 applied and target 1
requested, `run_apply` returns `Invalid` and the state is untouched. -/
theorem invalid_target_rejected_witness :
    outOfSyncIds [migA, migB] st6 = [] ∧
    Runner.run_apply envOk [migA, migB] (some 1) false st6
      = (.error (.Invalid "target version V1 earlier than latest applied version V2"), st6) := by
  refine ⟨by decide, ?_⟩
  have h := ((invalid_target_rejected envOk [migA, migB] st6 false (by decide)).1
    2 1 (by decide) (by decide)).1
  exact h.trans (by decide)

/-- C1: `run_apply(target, false)` selects exactly the source migrations with
version strictly above the latest applied version — all of them when history
is empty, the latest version being the maximum among history rows and `none`
exactly when history is empty — and at most the target when one is given; it
applies them one at a time in strictly ascending version order (the traced
build–execute–insert triples appear in that order), and the returned `Report`
has exactly one `Applied` result per applied migration, in the same order. -/
theorem run_apply_selection_and_order (env : Env) (source : List Migration) (st : DbState)
    (target : Option Int)
    (hsorted : sortedByVersion source)
    (hsync : Runner.validate_source source st = .ok ())
    (htgt : Runner.validate_target source (latest_version st.history) target = .ok ())
    (hall : ∀ m ∈ selectedMigrations source (latest_version st.history) target,
      migOk env m = true) :
    (latest_version st.history = none ↔ st.history = []) ∧
    (∀ v, latest_version st.history = some v →
       (∃ a ∈ st.history, a.version = v) ∧ ∀ a ∈ st.history, a.version ≤ v) ∧
    sortedByVersion (selectedMigrations source (latest_version st.history) target) ∧
    Runner.run_apply env source target false st
      = (.ok ⟨(selectedMigrations source (latest_version st.history) target).map
            (appliedResult env)⟩,
         ⟨st.history ++ (selectedMigrations source (latest_version st.history) target).map
            (appliedRow env),
          st.trace ++ (selectedMigrations source (latest_version st.history) target).flatMap
            (applyEvents env)⟩) := by
  refine ⟨latest_version_none_iff, fun v hv => latest_version_spec hv,
    sortedByVersion_filter _ hsorted, ?_⟩
  rw [run_apply_eq_loop env target false hsorted hsync htgt]
  exact applyLoop_ok_of_all env _ hall [] st

/-- Witness for C1: from an empty history, the two-migration source is applied
fully, in order V1 then V2, with one `Applied` result each. -/
theorem run_apply_selection_and_order_witness :
    sortedByVersion [migA, migB] ∧
    Runner.run_apply envOk [migA, migB] none false st0
      = (.ok ⟨[{ dryrun := false, version := 1, state := .Applied, applied_at := some 77
                 description := "one", content := "SELECT 1;"
                 transactional := .InTransaction, duration_ms := .Duration 5 },
               { dryrun := false, version := 2, state := .Applied, applied_at := some 77
                 description := "two", content := "SELECT 2;"
                 transactional := .NoTransaction, duration_ms := .Duration 5 }]⟩,
         ⟨[{ version := 1, description := "one", content := "SELECT 1;"
             duration_ms := 5, applied_at := 77 },
           { version := 2, description := "two", content := "SELECT 2;"
             duration_ms := 5, applied_at := 77 }],
          [.builtQuery ⟨1, "one"⟩, .applyTx ⟨"SELECT 1;"⟩,
           .insertApplied { version := 1, description := "one", content := "SELECT 1;"
                            duration_ms := 5, applied_at := 77 },
           .builtQuery ⟨2, "two"⟩, .applyNoTx ⟨"SELECT 2;"⟩,
           .insertApplied { version := 2, description := "two", content := "SELECT 2;"
                            duration_ms := 5, applied_at := 77 }]⟩) := by
  refine ⟨by decide, ?_⟩
  have h := (run_apply_selection_and_order envOk [migA, migB] st0 none
    (by decide) (by decide) (by decide) (by decide)).2.2.2
  exact h.trans (by decide)

/-- C8: a dry `run_apply` only builds: each selected migration contributes an
`Unapplied` result carrying the resolved SQL of its (possibly dynamically)
built query, the history is unchanged, and the trace gains only the build
calls — no `apply_tx`, `apply_no_tx`, `insert_applied_migration` or
`upsert_applied_migration` call occurs. -/
theorem run_apply_dryrun_frame (env : Env) (source : List Migration) (st : DbState)
    (target : Option Int)
    (hsorted : sortedByVersion source)
    (hsync : Runner.validate_source source st = .ok ())
    (htgt : Runner.validate_target source (latest_version st.history) target = .ok ())
    (hbuilds : ∀ m ∈ selectedMigrations source (latest_version st.history) target,
      buildsOk m = true) :
    Runner.run_apply env source target true st
      = (.ok ⟨(selectedMigrations source (latest_version st.history) target).map
            (fun m => MigrationResult.from_unapplied m (builtQ m).sql)⟩,
         ⟨st.history,
          st.trace ++ (selectedMigrations source (latest_version st.history) target).map
            (fun m => .builtQuery m.id)⟩) := by
  rw [run_apply_eq_loop env target true hsorted hsync htgt]
  exact applyLoop_dry_of_builds env _ hbuilds [] st

/-- Witness for C8: the dry run reports both migrations as `Unapplied` with
their SQL, writes nothing, and traces only the two builds. -/
theorem run_apply_dryrun_frame_witness :
    Runner.run_apply envOk [migA, migB] none true st0
      = (.ok ⟨[{ dryrun := true, version := 1, state := .Unapplied, applied_at := none
                 description := "one", content := "SELECT 1;"
                 transactional := .InTransaction, duration_ms := .Unapplied },
               { dryrun := true, version := 2, state := .Unapplied, applied_at := none
                 description := "two", content := "SELECT 2;"
                 transactional := .NoTransaction, duration_ms := .Unapplied }]⟩,
         ⟨[], [.builtQuery ⟨1, "one"⟩, .builtQuery ⟨2, "two"⟩]⟩) := by
  have h := run_apply_dryrun_frame envOk [migA, migB] st0 none
    (by decide) (by decide) (by decide) (by decide)
  exact h.trans (by decide)

theorem flatMap_singleton {α β : Type} (f : α → β) (l : List α) :
    l.flatMap (fun a => [f a]) = l.map f := by
  induction l with
  | nil => rfl
  | cons x xs ih => simp [ih]

/-- C3 (amended): `run_soft_apply` builds each selected migration's query but
never executes it — the trace contains no `apply_tx` or `apply_no_tx` call —
and when `dryrun` is false it records, through the context's `insert_applied`
(the executor's `insert_applied_migration`), an `AppliedMigration` whose
content is the `"-- SOFT APPLIED:"` marker followed by the built SQL and
whose `duration_ms` is 0; when `dryrun` is true nothing is written. -/
theorem run_soft_apply_marker_rows (env : Env) (source : List Migration) (st : DbState)
    (target : Option Int)
    (hsorted : sortedByVersion source)
    (hsync : Runner.validate_source source st = .ok ())
    (htgt : Runner.validate_target source (latest_version st.history) target = .ok ())
    (hbuilds : ∀ m ∈ selectedMigrations source (latest_version st.history) target,
      buildsOk m = true) :
    (Runner.run_soft_apply env source target false st
      = (.ok ⟨(selectedMigrations source (latest_version st.history) target).map
            (fun m => MigrationResult.from_soft_applied (softRow env m) false)⟩,
         ⟨st.history ++ (selectedMigrations source (latest_version st.history) target).map
            (softRow env),
          st.trace ++ (selectedMigrations source (latest_version st.history) target).flatMap
            (fun m => [.builtQuery m.id, .insertApplied (softRow env m)])⟩)) ∧
    (Runner.run_soft_apply env source target true st
      = (.ok ⟨(selectedMigrations source (latest_version st.history) target).map
            (fun m => MigrationResult.from_soft_applied (softRow env m) true)⟩,
         ⟨st.history,
          st.trace ++ (selectedMigrations source (latest_version st.history) target).map
            (fun m => .builtQuery m.id)⟩)) ∧
    (∀ m, softRow env m
       = m.to_applied 0 env.now ("-- SOFT APPLIED:\n\n" ++ (builtQ m).sql ++ "\n")) := by
  refine ⟨?_, ?_, fun m => rfl⟩
  · rw [run_soft_apply_eq_loop env target false hsorted hsync htgt]
    exact softApplyLoop_of_builds env false _ hbuilds [] st
  · rw [run_soft_apply_eq_loop env target true hsorted hsync htgt]
    have h := softApplyLoop_of_builds env true _ hbuilds [] st
    rw [h]
    simp [flatMap_singleton]

/-- Witness for C3 (amended): soft-applying `[migA]` from an empty history
records one zero-duration marker row via an insert call, executes nothing. -/
theorem run_soft_apply_marker_rows_witness :
    Runner.run_soft_apply envOk [migA] none false st0
      = (.ok ⟨[{ dryrun := false, version := 1, state := .SoftApplied, applied_at := some 77
                 description := "one", content := "-- SOFT APPLIED:\n\nSELECT 1;\n"
                 transactional := .Other "Soft applied", duration_ms := .Duration 0 }]⟩,
         ⟨[{ version := 1, description := "one", content := "-- SOFT APPLIED:\n\nSELECT 1;\n"
             duration_ms := 0, applied_at := 77 }],
          [.builtQuery ⟨1, "one"⟩,
           .insertApplied { version := 1, description := "one"
                            content := "-- SOFT APPLIED:\n\nSELECT 1;\n"
                            duration_ms := 0, applied_at := 77 }]⟩) := by
  have h := (run_soft_apply_marker_rows envOk [migA] st0 none
    (by decide) (by decide) (by decide) (by decide)).1
  exact h.trans (by decide)

/-- Counterexample for C3 as stated: the C3 claim says the history update of
a non-dry soft apply goes through the executor's `upsert_applied_migration`,
but `Runner::run_soft_apply` calls `self.context.insert_applied`, which is
`insert_applied_migration`: in this run the history gains a row while the
trace shows an insert call and contains no upsert call at all. -/
theorem run_soft_apply_upsert_counterexample :
    (Runner.run_soft_apply envOk [migA] none false st0).2.history
      = [{ version := 1, description := "one", content := "-- SOFT APPLIED:\n\nSELECT 1;\n"
           duration_ms := 0, applied_at := 77 }] ∧
    (Runner.run_soft_apply envOk [migA] none false st0).2.trace
      = [.builtQuery ⟨1, "one"⟩,
         .insertApplied { version := 1, description := "one"
                          content := "-- SOFT APPLIED:\n\nSELECT 1;\n"
                          duration_ms := 0, applied_at := 77 }] ∧
    ((Runner.run_soft_apply envOk [migA] none false st0).2.trace.filter
        (fun e => match e with | Event.upsertApplied _ => true | _ => false)) = [] := by
  exact ⟨by decide, by decide, by decide⟩

/-- C4: if the `k`-th selected migration of a non-dry `run_apply` fails to
build or execute after the first `k-1` succeeded (`k ≥ 2`), the run stops at
once — the trace ends with the failing attempt and contains nothing for any
later migration — and returns a `Partial` error whose report holds exactly
the results of the first `k-1` migrations, in completion order. -/
theorem run_apply_partial_prefix (env : Env) (source : List Migration) (st : DbState)
    (target : Option Int) (k : Nat)
    (hsorted : sortedByVersion source)
    (hsync : Runner.validate_source source st = .ok ())
    (htgt : Runner.validate_target source (latest_version st.history) target = .ok ())
    (hk2 : 2 ≤ k)
    (hklt : k - 1 < (selectedMigrations source (latest_version st.history) target).length)
    (hpre : ∀ m ∈ (selectedMigrations source (latest_version st.history) target).take (k - 1),
      migOk env m = true)
    (hfail : migOk env
      ((selectedMigrations source (latest_version st.history) target).get ⟨k - 1, hklt⟩)
      = false) :
    Runner.run_apply env source target false st
      = (.error (.Partial
           (failErr env
             ((selectedMigrations source (latest_version st.history) target).get ⟨k - 1, hklt⟩))
           ⟨((selectedMigrations source (latest_version st.history) target).take (k - 1)).map
              (appliedResult env)⟩),
         ⟨st.history ++ ((selectedMigrations source (latest_version st.history) target).take
              (k - 1)).map (appliedRow env),
          st.trace ++ ((selectedMigrations source (latest_version st.history) target).take
              (k - 1)).flatMap (applyEvents env)
            ++ failEvents
              ((selectedMigrations source (latest_version st.history) target).get
                ⟨k - 1, hklt⟩)⟩) := by
  obtain ⟨j, rfl⟩ : ∃ j, k = j + 1 := ⟨k - 1, by omega⟩
  simp only [Nat.add_sub_cancel] at hklt hpre hfail ⊢
  rw [run_apply_eq_loop env target false hsorted hsync htgt]
  have hsplit : selectedMigrations source (latest_version st.history) target
      = (selectedMigrations source (latest_version st.history) target).take j
        ++ (selectedMigrations source (latest_version st.history) target).get ⟨j, hklt⟩
          :: (selectedMigrations source (latest_version st.history) target).drop (j + 1) := by
    rw [List.get_eq_getElem]
    conv_lhs =>
      rw [← List.take_append_drop j
        (selectedMigrations source (latest_version st.history) target)]
    rw [List.drop_eq_getElem_cons hklt]
  conv_lhs => rw [hsplit]
  exact applyLoop_err_at env _ hpre _ hfail _ [] st

/-- Witness for C4 with `k = 2`: V1 succeeds, V3 fails; the run returns
`Partial` carrying exactly V1's result, V1's row is in history, and the trace
stops at V3's failed execution. -/
theorem run_apply_partial_prefix_witness :
    migOk envBad migA = true ∧ migOk envBad migBad = false ∧
    Runner.run_apply envBad [migA, migBad] none false st0
      = (.error (.Partial
           (.ExecuteMigration (.ExecuteMigration (.Backend "boom") ⟨3, "three"⟩ false)
             ⟨3, "three"⟩ false)
           ⟨[{ dryrun := false, version := 1, state := .Applied, applied_at := some 77
               description := "one", content := "SELECT 1;"
               transactional := .InTransaction, duration_ms := .Duration 5 }]⟩),
         ⟨[{ version := 1, description := "one", content := "SELECT 1;"
             duration_ms := 5, applied_at := 77 }],
          [.builtQuery ⟨1, "one"⟩, .applyTx ⟨"SELECT 1;"⟩,
           .insertApplied { version := 1, description := "one", content := "SELECT 1;"
                            duration_ms := 5, applied_at := 77 },
           .builtQuery ⟨3, "three"⟩, .applyTx ⟨"BAD;"⟩]⟩) := by
  refine ⟨by decide, by decide, ?_⟩
  have h := run_apply_partial_prefix envBad [migA, migBad] st0 none 2
    (by decide) (by decide) (by decide) (by omega) (by decide) (by decide) (by decide)
  exact h.trans (by decide)

theorem validate_target_none (source : List Migration) (last : Option Int) :
    Runner.validate_target source last none = .ok () := by
  unfold Runner.validate_target
  split
  · rfl
  · rfl

/-- C7: after a successful `run_apply(None, false)`, running
`run_apply(None, false)` again on the resulting state returns a `Report`
with zero results and returns the state unchanged — no insert happens, and
the history rows are identical before and after the second call. -/
theorem run_apply_idempotent (env : Env) (source : List Migration) (st : DbState)
    (r : Report) (st₁ : DbState)
    (hsorted : sortedByVersion source)
    (hfirst : Runner.run_apply env source none false st = (.ok r, st₁)) :
    Runner.run_apply env source none false st₁ = (.ok ⟨[]⟩, st₁) := by
  -- The first call's success forces the source validation to have passed.
  cases hv : Runner.validate_source source st with
  | error e =>
    rw [run_apply_sync_err env none false hv] at hfirst
    exact absurd (Prod.mk.inj hfirst).1 (by simp)
  | ok u =>
    cases u
    rw [run_apply_eq_loop env none false hsorted hv (validate_target_none _ _)] at hfirst
    have hall := applyLoop_ok_inv env _ [] st r st₁ hfirst
    rw [applyLoop_ok_of_all env _ hall [] st] at hfirst
    have hst₁ : st₁
        = ⟨st.history ++ (selectedMigrations source (latest_version st.history) none).map
             (appliedRow env),
           st.trace ++ (selectedMigrations source (latest_version st.history) none).flatMap
             (applyEvents env)⟩ :=
      (Prod.mk.inj hfirst).2.symm
    -- Source/history sync still holds afterwards: the new rows carry ids of
    -- source migrations.
    have hsync₁ : Runner.validate_source source st₁ = .ok () := by
      apply validate_source_ok_iff.mpr
      intro a ha
      rw [hst₁] at ha
      rcases List.mem_append.mp ha with hold | hnew
      · exact validate_source_ok_iff.mp hv a hold
      · rcases List.mem_map.mp hnew with ⟨m, hm, rfl⟩
        have hmsrc : m ∈ source := List.mem_of_mem_filter hm
        exact List.mem_map.mpr ⟨m, hmsrc, rfl⟩
    -- After the run, every source version is at or below the new latest
    -- applied version, so the new selection is empty.
    have hempty : migration_set source (latest_version st₁.history) = [] := by
      cases hlast₁ : latest_version st₁.history with
      | none =>
        have hnil₁ : st₁.history = [] := latest_version_none_iff.mp hlast₁
        rw [hst₁] at hnil₁
        rcases List.append_eq_nil.mp hnil₁ with ⟨hnil0, hselnil⟩
        have hsel : selectedMigrations source (latest_version st.history) none = [] :=
          List.map_eq_nil_iff.mp hselnil
        have hlast0 : latest_version st.history = none := by
          rw [latest_version_none_iff]
          exact hnil0
        rw [show migration_set source none
            = selectedMigrations source (latest_version st.history) none from by
          rw [hlast0]
          exact migration_set_selected_none hsorted none]
        exact hsel
      | some v₁ =>
        rcases latest_version_spec hlast₁ with ⟨-, hub⟩
        show MigrationSet.new _ = []
        unfold MigrationSet.new
        rw [List.dropWhile_eq_nil_iff.mpr ?_]
        · rfl
        · intro m hm
          simp only [decide_eq_true_eq]
          by_cases hmsel : m ∈ selectedMigrations source (latest_version st.history) none
          · have hrow : appliedRow env m ∈ st₁.history := by
              rw [hst₁]
              exact List.mem_append.mpr (Or.inr (List.mem_map_of_mem _ hmsel))
            exact hub _ hrow
          · have hmpred := hmsel
            unfold selectedMigrations at hmpred
            rw [List.mem_filter] at hmpred
            push_neg at hmpred
            have := hmpred hm
            cases hlast0 : latest_version st.history with
            | none =>
              rw [hlast0] at this
              simp at this
            | some v₀ =>
              rw [hlast0] at this
              simp only [Bool.and_true, decide_eq_true_eq] at this
              have hmv : m.id.version ≤ v₀ := not_lt.mp (by simpa using this)
              rcases latest_version_spec hlast0 with ⟨⟨a0, ha0, ha0v⟩, -⟩
              have ha0mem : a0 ∈ st₁.history := by
                rw [hst₁]
                exact List.mem_append.mpr (Or.inl ha0)
              have : v₀ ≤ v₁ := ha0v ▸ hub a0 ha0mem
              omega
    rw [run_apply_unfold env none false hsync₁ (validate_target_none _ _), hempty]
    rfl

/-- Witness for C7: after applying `[migA]` from scratch, the immediate
second `run_apply(None, false)` yields an empty report and the same state. -/
theorem run_apply_idempotent_witness :
    Runner.run_apply envOk [migA] none false st0
      = (.ok ⟨[{ dryrun := false, version := 1, state := .Applied, applied_at := some 77
                 description := "one", content := "SELECT 1;"
                 transactional := .InTransaction, duration_ms := .Duration 5 }]⟩,
         ⟨[{ version := 1, description := "one", content := "SELECT 1;"
             duration_ms := 5, applied_at := 77 }],
          [.builtQuery ⟨1, "one"⟩, .applyTx ⟨"SELECT 1;"⟩,
           .insertApplied { version := 1, description := "one", content := "SELECT 1;"
                            duration_ms := 5, applied_at := 77 }]⟩) ∧
    Runner.run_apply envOk [migA] none false
        ⟨[{ version := 1, description := "one", content := "SELECT 1;"
            duration_ms := 5, applied_at := 77 }],
         [.builtQuery ⟨1, "one"⟩, .applyTx ⟨"SELECT 1;"⟩,
          .insertApplied { version := 1, description := "one", content := "SELECT 1;"
                           duration_ms := 5, applied_at := 77 }]⟩
      = (.ok ⟨[]⟩,
         ⟨[{ version := 1, description := "one", content := "SELECT 1;"
             duration_ms := 5, applied_at := 77 }],
          [.builtQuery ⟨1, "one"⟩, .applyTx ⟨"SELECT 1;"⟩,
           .insertApplied { version := 1, description := "one", content := "SELECT 1;"
                            duration_ms := 5, applied_at := 77 }]⟩) := by
  refine ⟨by decide, ?_⟩
  exact run_apply_idempotent envOk [migA] st0
    ⟨[{ dryrun := false, version := 1, state := .Applied, applied_at := some 77
        description := "one", content := "SELECT 1;"
        transactional := .InTransaction, duration_ms := .Duration 5 }]⟩
    ⟨[{ version := 1, description := "one", content := "SELECT 1;"
        duration_ms := 5, applied_at := 77 }],
     [.builtQuery ⟨1, "one"⟩, .applyTx ⟨"SELECT 1;"⟩,
      .insertApplied { version := 1, description := "one", content := "SELECT 1;"
                       duration_ms := 5, applied_at := 77 }]⟩
    (by decide) (by decide)

end Tern
